import Mathlib

/-!
# worbridg/ipaddress: IPv4 address and CIDR arithmetic

A shallow embedding of `ipv4address.go` together with the parts of the Go
standard library it calls (`net.ParseIP`, `net.IP.To4`, `strconv.Atoi`,
`fmt.Sprintf` with the verb `%d`), followed by theorems about the embedded
functions.

Conventions of the embedding.

* A Go `string` is a `List Char`.  Every test the code performs on a byte
  (`'/'`, `'.'`, `':'`, sign, decimal and hexadecimal digits) is a test for an
  ASCII byte, and no byte of a multi-byte UTF-8 sequence is ASCII, so a
  non-ASCII character behaves like the bytes that encode it: it fails every
  test.
* A `byte` is a `Fin 256`; a `net.IP` is a `List Byte`, the nil slice being
  `[]`.
* A `uint32` is a `Nat` kept below `2 ^ 32` by an explicit `% 2 ^ 32`; an
  `int` is an `Int` (64-bit platform), wrapped by `wrapInt` where the code
  subtracts.
* A `*IPv4Address` that may be nil is an `Option IPv4Address`; a run-time
  panic is the error side of `Go α`.
-/

namespace Ipaddress

/-! ## Go run-time scaffolding -/

/-- A byte. -/
abbrev Byte := Fin 256

/-- Run-time panics the embedded code can raise. -/
inductive Panic where
  | negativeShift
  | nilDereference
  | indexOutOfRange
  | invalidArgument
  deriving DecidableEq, Repr

/-- A Go computation that either panics or returns a value. -/
abbrev Go (α : Type) := Except Panic α

deriving instance DecidableEq for Except

/-- Two's complement wrap-around of a 64-bit `int`. -/
def wrapInt (x : Int) : Int := (x + 2 ^ 63) % 2 ^ 64 - 2 ^ 63

/-- Shift `x << s` on `uint32` with a signed count: panics on a negative
count, and shifts out everything above bit 31. -/
def shl32 (x : Nat) (s : Int) : Go Nat :=
  if s < 0 then .error .negativeShift else .ok ((x <<< s.toNat) % 2 ^ 32)

/-! ## `fmt.Sprintf("%d", n)` for a non-negative `n` -/

/-- The character of a decimal digit. -/
def digitChar (d : Nat) : Char := Char.ofNat (48 + d)

/-- Decimal digits of `n`, most significant first, with `fuel` bounding the
number of digits. -/
def fmtDigits : Nat → Nat → List Char
  | 0, _ => []
  | fuel + 1, n =>
    if n < 10 then [digitChar n] else fmtDigits fuel (n / 10) ++ [digitChar (n % 10)]

/-- Rendering of the verb `%d` for a non-negative integer: decimal, no leading
zeros. -/
def fmtDecimal (n : Nat) : List Char := fmtDigits (n + 1) n

/-! ## `net` package: textual IP addresses

The parsers follow `src/net/ip.go` and `src/net/parse.go` of the Go
distribution (`ParseIP`, `parseIPv4`, `parseIPv6`, `dtoi`, `xtoi`), in the
version that rejects a component with a leading zero. -/

/-- Bound of `dtoi` and `xtoi` (`big` in package `net`). -/
def big : Nat := 0xFFFFFF

/-- Test `'0' <= c && c <= '9'`. -/
def isDecDigit (c : Char) : Bool := decide (48 ≤ c.toNat) && decide (c.toNat ≤ 57)

/-- Loop of `dtoi`, with the accumulated value `n` and the count `i` of
consumed bytes. -/
def dtoiLoop : List Char → Nat → Nat → Nat × Nat × Bool
  | [], n, i => if i = 0 then (0, 0, false) else (n, i, true)
  | c :: cs, n, i =>
    if isDecDigit c then
      if n * 10 + (c.toNat - 48) ≥ big then (big, i, false)
      else dtoiLoop cs (n * 10 + (c.toNat - 48)) (i + 1)
    else if i = 0 then (0, 0, false) else (n, i, true)

/-- Decimal to integer (`net.dtoi`): value, bytes consumed, success. -/
def dtoi (s : List Char) : Nat × Nat × Bool := dtoiLoop s 0 0

/-- Value of one hexadecimal digit, if `c` is one. -/
def hexVal (c : Char) : Option Nat :=
  if 48 ≤ c.toNat ∧ c.toNat ≤ 57 then some (c.toNat - 48)
  else if 97 ≤ c.toNat ∧ c.toNat ≤ 102 then some (c.toNat - 97 + 10)
  else if 65 ≤ c.toNat ∧ c.toNat ≤ 70 then some (c.toNat - 65 + 10)
  else none

/-- Loop of `xtoi`. -/
def xtoiLoop : List Char → Nat → Nat → Nat × Nat × Bool
  | [], n, i => if i = 0 then (0, i, false) else (n, i, true)
  | c :: cs, n, i =>
    match hexVal c with
    | some d =>
      if n * 16 + d ≥ big then (0, i, false) else xtoiLoop cs (n * 16 + d) (i + 1)
    | none => if i = 0 then (0, i, false) else (n, i, true)

/-- Hexadecimal to integer (`net.xtoi`): value, bytes consumed, success. -/
def xtoi (s : List Char) : Nat × Nat × Bool := xtoiLoop s 0 0

/-- The twelve bytes that precede an IPv4 address in its 16-byte form
(`v4InV6Prefix`). -/
def v4InV6Prefix : List Byte := [0, 0, 0, 0, 0, 0, 0, 0, 0, 0, 0xff, 0xff]

/-- The 16-byte form of the IPv4 address `a.b.c.d` (`net.IPv4`). -/
def IPv4 (a b c d : Byte) : List Byte := v4InV6Prefix ++ [a, b, c, d]

/-- The separator test of `parseIPv4`: `s[0] != '.'` returns nil (`none`),
otherwise the text goes on at `s[1:]`. -/
def skipDot : List Char → Option (List Char)
  | '.' :: t => some t
  | _ => none

/-- The loop of `parseIPv4` over the `k` remaining components; `first` says
that no component has been read yet (`i == 0`).  Returns the bytes read and
the text left over. -/
def parseIPv4Fields : Nat → Bool → List Char → Option (List Byte × List Char)
  | 0, _, s => some ([], s)
  | k + 1, first, s =>
    if s.length = 0 then none
    else
      match (if first then some s else skipDot s) with
      | none => none
      | some s1 =>
        match dtoi s1 with
        | (n, c, ok) =>
          if !ok || decide (n > 0xFF) then none
          else if decide (c > 1) && decide (s1.head? = some '0') then none
          else
            match parseIPv4Fields k false (s1.drop c) with
            | none => none
            | some (p, rest) => some (Fin.ofNat n :: p, rest)

/-- Parse a dotted-decimal IPv4 address (`net.parseIPv4`); `[]` is nil. -/
def parseIPv4 (s : List Char) : List Byte :=
  match parseIPv4Fields 4 true s with
  | some ([a, b, c, d], []) => IPv4 a b c d
  | _ => []

/-- State of the main loop of `parseIPv6`: the bytes `ip[0:i]` written so far,
the position of the ellipsis (`-1` when there is none) and the text left. -/
structure V6State where
  ip : List Byte
  ellipsis : Int
  s : List Char

/-- The main loop of `parseIPv6`, one 16-bit group per iteration; `none` is an
early `return nil`. -/
def parseIPv6Loop : Nat → V6State → Option V6State
  | 0, st => some st
  | fuel + 1, st =>
    if st.ip.length < 16 then
      match xtoi st.s with
      | (n, c, ok) =>
        if !ok || decide (n > 0xFFFF) then none
        else if decide (c < st.s.length) && decide (st.s.get? c = some '.') then
          if st.ellipsis < 0 ∧ st.ip.length ≠ 12 then none
          else if st.ip.length + 4 > 16 then none
          else
            match parseIPv4 st.s with
            | [] => none
            | ip4 => some { st with ip := st.ip ++ ip4.drop 12, s := [] }
        else
          let ip := st.ip ++ [Fin.ofNat (n >>> 8), Fin.ofNat n]
          match st.s.drop c with
          | [] => some { st with ip := ip, s := [] }
          | [_] => none
          | c0 :: c1 :: rest =>
            if c0 ≠ ':' then none
            else if c1 = ':' then
              if st.ellipsis ≥ 0 then none
              else
                match rest with
                | [] => some { ip := ip, ellipsis := ip.length, s := [] }
                | _ => parseIPv6Loop fuel { ip := ip, ellipsis := ip.length, s := rest }
            else parseIPv6Loop fuel { st with ip := ip, s := c1 :: rest }
    else some st

/-- Parse a literal IPv6 address (`net.parseIPv6`); `[]` is nil.  The in-place
expansion of the ellipsis is written as the insertion of the missing zero
bytes at its position. -/
def parseIPv6 (s : List Char) : List Byte :=
  let st0 : V6State :=
    match s with
    | ':' :: ':' :: t => { ip := [], ellipsis := 0, s := t }
    | _ => { ip := [], ellipsis := -1, s := s }
  if st0.ellipsis = 0 ∧ st0.s = [] then List.replicate 16 0
  else
    match parseIPv6Loop 8 st0 with
    | none => []
    | some st =>
      if st.s.length ≠ 0 then []
      else if st.ip.length < 16 then
        if st.ellipsis < 0 then []
        else
          st.ip.take st.ellipsis.toNat ++ List.replicate (16 - st.ip.length) 0
            ++ st.ip.drop st.ellipsis.toNat
      else if st.ellipsis ≥ 0 then []
      else st.ip

/-- Parse a textual IP address (`net.ParseIP`): the first `'.'` or `':'`
decides between IPv4 and IPv6; `[]` is nil.  The scan is over the suffix
`rest` of the whole text `s`. -/
def ParseIPScan (s : List Char) : List Char → List Byte
  | [] => []
  | c :: rest =>
    if c = '.' then parseIPv4 s
    else if c = ':' then parseIPv6 s
    else ParseIPScan s rest

/-- The function `net.ParseIP`. -/
def ParseIP (s : List Char) : List Byte := ParseIPScan s s

/-- The method `net.IP.To4`: the 4-byte form of an IPv4 address, nil (`[]`) if
`ip` is not an IPv4 address. -/
def To4 (ip : List Byte) : List Byte :=
  if ip.length = 4 then ip
  else if ip.length = 16 ∧ (ip.take 10).all (· == 0) ∧ ip.get? 10 = some 0xff
      ∧ ip.get? 11 = some 0xff then ip.drop 12
  else []

/-! ## `strconv.Atoi` and `strings.Index` -/

/-- Loop of the fast path of `strconv.Atoi`: every byte must be a decimal
digit. -/
def atoiFast : List Char → Nat → Option Nat
  | [], n => some n
  | c :: cs, n => if isDecDigit c then atoiFast cs (n * 10 + (c.toNat - 48)) else none

/-- Loop of `strconv.ParseUint` in base 10 with 64 bits: a byte that is not a
decimal digit is a syntax error, a value above `2 ^ 64 - 1` a range error;
both are `none`. -/
def parseUintLoop : List Char → Nat → Option Nat
  | [], n => some n
  | c :: cs, n =>
    if isDecDigit c then
      if n ≥ (2 ^ 64 - 1) / 10 + 1 then none
      else if n * 10 + (c.toNat - 48) > 2 ^ 64 - 1 then none
      else parseUintLoop cs (n * 10 + (c.toNat - 48))
    else none

/-- The function `strconv.ParseInt(s, 10, 0)` on a 64-bit platform; `none` is
a non-nil error. -/
def ParseInt (s : List Char) : Option Int :=
  match s with
  | [] => none
  | c :: t =>
    let neg := decide (c = '-')
    let body := if c = '+' ∨ c = '-' then t else s
    match body with
    | [] => none
    | _ =>
      match parseUintLoop body 0 with
      | none => none
      | some un =>
        if !neg && decide (un ≥ 2 ^ 63) then none
        else if neg && decide (un > 2 ^ 63) then none
        else some (if neg then -(un : Int) else (un : Int))

/-- The function `strconv.Atoi` on a 64-bit platform; `none` is a non-nil
error.  Texts of 1 to 18 bytes take the fast path, the others go through
`ParseInt`. -/
def Atoi (s : List Char) : Option Int :=
  if 0 < s.length ∧ s.length < 19 then
    match s with
    | [] => none
    | c :: t =>
      let body := if c = '-' ∨ c = '+' then t else s
      if body.length < 1 then none
      else
        match atoiFast body 0 with
        | none => none
        | some n => some (if c = '-' then -(n : Int) else (n : Int))
  else ParseInt s

/-- The function `strings.Index(s, "/")`: index of the first `'/'`, or `-1`. -/
def IndexSlash : List Char → Int
  | [] => -1
  | c :: cs => if c = '/' then 0 else if IndexSlash cs = -1 then -1 else IndexSlash cs + 1

/-! ## The package `ipaddress` -/

/-- The two errors of the package. -/
inductive Error where
  | ErrInvalidIPAddress
  | ErrInvalidPrefix
  deriving DecidableEq, Repr

/-- An IP address in version 4: the field `n` is a `net.IP`, the field
`prefixLen` is the field `prefix` of the source. -/
structure IPv4Address where
  n : List Byte
  prefixLen : Int
  deriving DecidableEq, Repr

/-- The function `validatePrefix`. -/
def validatePrefix (p : Int) : Bool := decide (p ≥ 0) && decide (p ≤ 32)

/-- The function `splitIPv4AddressToAddressAndPreix`. -/
def splitIPv4AddressToAddressAndPreix (addr : List Char) : Except Error (List Char × Int) :=
  let n := IndexSlash addr
  if n = -1 then .ok (addr, 32)
  else
    match Atoi (addr.drop (n + 1).toNat) with
    | none => .error .ErrInvalidPrefix
    | some p =>
      if !validatePrefix p then .error .ErrInvalidPrefix
      else .ok (addr.take n.toNat, p)

/-- The function `NewIPv4Address`. -/
def NewIPv4Address (addr : List Char) : Except Error IPv4Address :=
  match splitIPv4AddressToAddressAndPreix addr with
  | .error e => .error e
  | .ok (addr1, p) =>
    match ParseIP addr1 with
    | [] => .error .ErrInvalidIPAddress
    | ip => .ok { n := To4 ip, prefixLen := p }

/-- The call `fmt.Sprintf("%d.%d.%d.%d", a, b, c, d)` on non-negative
integers. -/
def SprintfDotted (a b c d : Nat) : List Char :=
  fmtDecimal a ++ ('.' :: (fmtDecimal b ++ ('.' :: (fmtDecimal c ++ ('.' :: fmtDecimal d)))))

/-- The method `String`: indexing `n[0]` to `n[3]` panics on a short slice. -/
def IPv4Address.String (ipv4 : IPv4Address) : Go (List Char) :=
  match ipv4.n with
  | a :: b :: c :: d :: _ => .ok (SprintfDotted a.val b.val c.val d.val)
  | _ => .error .indexOutOfRange

/-- Loop of the method `Uint32` over the bytes of `n.To4()`, with the sum `n`
and the index `i`. -/
def uint32Loop : List Byte → Nat → Nat → Nat
  | [], n, _ => n
  | b :: bs, n, i => uint32Loop bs ((n + (b.val <<< (24 - 8 * i)) % 2 ^ 32) % 2 ^ 32) (i + 1)

/-- The method `Uint32`. -/
def IPv4Address.Uint32 (ipv4 : IPv4Address) : Nat := uint32Loop (To4 ipv4.n) 0 0

/-- The method `Prefix`. -/
def IPv4Address.Prefix (ipv4 : IPv4Address) : Int := ipv4.prefixLen

/-- The function `ToIPv4AddressWithPrefix`; `none` is the nil pointer. -/
def ToIPv4AddressWithPrefix (n : Nat) (p : Int) : Option IPv4Address :=
  if !validatePrefix p then none
  else
    let b0 := (n >>> 24) &&& 0xff
    let b1 := (n >>> 16) &&& 0xff
    let b2 := (n >>> 8) &&& 0xff
    let b3 := n &&& 0xff
    some { n := To4 (ParseIP (SprintfDotted b0 b1 b2 b3)), prefixLen := p }

/-- The function `ToIPv4Address`. -/
def ToIPv4Address (n : Nat) : Option IPv4Address := ToIPv4AddressWithPrefix n 32

/-- The method `Network`. -/
def IPv4Address.Network (ipv4 : IPv4Address) : Go (Option IPv4Address) :=
  match shl32 0xffffffff (wrapInt (32 - ipv4.prefixLen)) with
  | .error e => .error e
  | .ok mask => .ok (ToIPv4AddressWithPrefix (ipv4.Uint32 &&& mask) ipv4.prefixLen)

/-- The method `Broadcast`: `1<<(32-prefix) - 1` is computed in `uint32`. -/
def IPv4Address.Broadcast (ipv4 : IPv4Address) : Go (Option IPv4Address) :=
  match shl32 1 (wrapInt (32 - ipv4.prefixLen)) with
  | .error e => .error e
  | .ok one =>
    .ok (ToIPv4AddressWithPrefix (ipv4.Uint32 ||| ((one + 2 ^ 32 - 1) % 2 ^ 32)) ipv4.prefixLen)

/-- The method `Uint32` called through a pointer that may be nil. -/
def ptrUint32 (p : Option IPv4Address) : Go Nat :=
  match p with
  | none => .error .nilDereference
  | some a => .ok a.Uint32

/-- The method `Equals`. -/
def IPv4Address.Equals (ipv4 : IPv4Address) (other : Option IPv4Address) : Go Bool :=
  match ptrUint32 other with
  | .error e => .error e
  | .ok o => .ok (decide (ipv4.Uint32 = o))

/-- The method `Next`. -/
def IPv4Address.Next (ipv4 : IPv4Address) : Go (Option IPv4Address) :=
  match ipv4.Broadcast with
  | .error e => .error e
  | .ok b =>
    match ptrUint32 b with
    | .error e => .error e
    | .ok bu =>
      if ipv4.Uint32 ≥ bu then .ok none
      else .ok (ToIPv4AddressWithPrefix ((ipv4.Uint32 + 1) % 2 ^ 32) ipv4.prefixLen)

/-- The method `Contains`. -/
def IPv4Address.Contains (ipv4 : IPv4Address) (other : Option IPv4Address) : Go Bool :=
  match ipv4.Network with
  | .error e => .error e
  | .ok nw =>
    match ptrUint32 nw with
    | .error e => .error e
    | .ok nu =>
      match ptrUint32 other with
      | .error e => .error e
      | .ok ou =>
        if nu ≤ ou then
          match ipv4.Broadcast with
          | .error e => .error e
          | .ok b =>
            match ptrUint32 b with
            | .error e => .error e
            | .ok bu => .ok (decide (ou ≤ bu))
        else .ok false

/-- Shift `x << s` on a 64-bit `int` with a signed count: panics on a negative
count, and wraps the result to 64 bits. -/
def shlInt (x : Int) (s : Int) : Go Int :=
  if s < 0 then .error .negativeShift else .ok (wrapInt (x * 2 ^ s.toNat))

/-- The method `Prev`. -/
def IPv4Address.Prev (ipv4 : IPv4Address) : Go (Option IPv4Address) :=
  match ipv4.Network with
  | .error e => .error e
  | .ok nw =>
    match ptrUint32 nw with
    | .error e => .error e
    | .ok nu =>
      if ipv4.Uint32 ≤ nu then .ok none
      else .ok (ToIPv4AddressWithPrefix ((ipv4.Uint32 + 2 ^ 32 - 1) % 2 ^ 32) ipv4.prefixLen)

/-- The package variable `ClassA`: `n` is the 16-byte form `net.ParseIP`
returns. -/
def ClassA : IPv4Address := { n := ParseIP "10.0.0.0".toList, prefixLen := 8 }

/-- The package variable `ClassB`. -/
def ClassB : IPv4Address := { n := ParseIP "172.16.0.0".toList, prefixLen := 12 }

/-- The package variable `ClassC`. -/
def ClassC : IPv4Address := { n := ParseIP "192.168.0.0".toList, prefixLen := 16 }

/-- The package variable `Multicast`. -/
def Multicast : IPv4Address := { n := ParseIP "224.0.0.0".toList, prefixLen := 4 }

/-- The package variable `Loopback`. -/
def Loopback : IPv4Address := { n := ParseIP "127.0.0.0".toList, prefixLen := 8 }

/-- The package variable `LinkLocal`. -/
def LinkLocal : IPv4Address := { n := ParseIP "169.254.0.0".toList, prefixLen := 16 }

/-- The loop of `IsPrivate` over the slice `classes`. -/
def isPrivateLoop (ipv4 : IPv4Address) : List IPv4Address → Go Bool
  | [] => .ok false
  | c :: rest =>
    match c.Contains (some ipv4) with
    | .error e => .error e
    | .ok true => .ok true
    | .ok false => isPrivateLoop ipv4 rest

/-- The method `IsPrivate`. -/
def IPv4Address.IsPrivate (ipv4 : IPv4Address) : Go Bool :=
  isPrivateLoop ipv4 [ClassA, ClassB, ClassC]

/-- The method `IsA`. -/
def IPv4Address.IsA (ipv4 : IPv4Address) : Go Bool := ClassA.Contains (some ipv4)

/-- The method `IsB`. -/
def IPv4Address.IsB (ipv4 : IPv4Address) : Go Bool := ClassB.Contains (some ipv4)

/-- The method `IsC`. -/
def IPv4Address.IsC (ipv4 : IPv4Address) : Go Bool := ClassC.Contains (some ipv4)

/-- The method `Bytes`. -/
def IPv4Address.Bytes (ipv4 : IPv4Address) : List Byte :=
  [Fin.ofNat ((ipv4.Uint32 >>> 24) &&& 0xff), Fin.ofNat ((ipv4.Uint32 >>> 16) &&& 0xff),
    Fin.ofNat ((ipv4.Uint32 >>> 8) &&& 0xff), Fin.ofNat (ipv4.Uint32 &&& 0xff)]

/-- The method `Netmask`: the shift is on `uint32`, the argument type of
`ToIPv4Address`. -/
def IPv4Address.Netmask (ipv4 : IPv4Address) : Go (List Char) :=
  match shl32 0xffffffff (wrapInt (32 - ipv4.prefixLen)) with
  | .error e => .error e
  | .ok mask =>
    match ToIPv4Address mask with
    | none => .error .nilDereference
    | some r => r.String

/-- The entries of the map `classes` of `Class`, name and predicate. -/
def classEntries : List (List Char × (IPv4Address → Go Bool)) :=
  [(['A'], IPv4Address.IsA), (['B'], IPv4Address.IsB), (['C'], IPv4Address.IsC)]

/-- The loop of `Class` over the map entries in the order `order` of one
iteration. -/
def classLoop (ipv4 : IPv4Address) :
    List (List Char × (IPv4Address → Go Bool)) → Go (List Char)
  | [] => .ok []
  | (name, fn) :: rest =>
    match fn ipv4 with
    | .error e => .error e
    | .ok true => .ok name
    | .ok false => classLoop ipv4 rest

/-- The method `Class`.  Go does not specify the iteration order of a map, so
the order in which the three entries are visited is the argument `order`, a
permutation of `classEntries`. -/
def IPv4Address.Class (ipv4 : IPv4Address)
    (order : List (List Char × (IPv4Address → Go Bool))) : Go (List Char) :=
  classLoop ipv4 order

/-- The method `Size`: the shift is on `int`, the result type. -/
def IPv4Address.Size (ipv4 : IPv4Address) : Go Int :=
  shlInt 1 (wrapInt (32 - ipv4.prefixLen))

/-- The method `Sample`.  The argument `r` is the value `rand.Intn` returns,
which is in `[0, n)` for its argument `n`; `rand.Intn` panics when `n <= 0`. -/
def IPv4Address.Sample (ipv4 : IPv4Address) (r : Nat) : Go (Option IPv4Address) :=
  match ipv4.Size with
  | .error e => .error e
  | .ok size =>
    if wrapInt (size - 1) ≤ 0 then .error .invalidArgument
    else
      match ipv4.Network with
      | .error e => .error e
      | .ok nw =>
        match ptrUint32 nw with
        | .error e => .error e
        | .ok nu =>
          .ok (ToIPv4AddressWithPrefix ((nu + r % 2 ^ 32) % 2 ^ 32) ipv4.prefixLen)

/-- The method `ARPA`. -/
def IPv4Address.ARPA (ipv4 : IPv4Address) : Go (List Char) :=
  match ipv4.Bytes with
  | [b0, b1, b2, b3] =>
    .ok (SprintfDotted b3.val b2.val b1.val b0.val ++ ".in-addr.arpa".toList)
  | _ => .error .indexOutOfRange

/-! ## Vocabulary of the properties -/

/-- Value of a text of decimal digits read onto the accumulator `acc`. -/
def decValFrom (acc : Nat) (ds : List Char) : Nat :=
  ds.foldl (fun n c => n * 10 + (c.toNat - 48)) acc

/-- A text that does not continue a run of decimal digits: it is empty or
starts with a byte that is not a digit. -/
def endsNumber (rest : List Char) : Prop :=
  ∀ c ∈ rest.head?, isDecDigit c = false

/-- A text `ds` is the canonical decimal numeral of `n`: a non-empty run of
decimal digits of value `n`, with no leading zero unless it is `0` itself. -/
def IsCanonicalDecimal (ds : List Char) (n : Nat) : Prop :=
  ds ≠ [] ∧ (∀ c ∈ ds, isDecDigit c = true) ∧ (ds.head? = some '0' → ds = ['0'])
    ∧ decValFrom 0 ds = n

instance (ds : List Char) (n : Nat) : Decidable (IsCanonicalDecimal ds n) := by
  unfold IsCanonicalDecimal; infer_instance

/-- The text `sa.sb.sc.sd`. -/
def dotted (sa sb sc sd : List Char) : List Char :=
  sa ++ ('.' :: (sb ++ ('.' :: (sc ++ ('.' :: sd)))))

/-- Sign and digits of a signed decimal numeral: an optional leading `'+'` or
`'-'` is split off; the flag says that the sign is `'-'`. -/
def signAndDigits : List Char → Bool × List Char
  | '+' :: t => (false, t)
  | '-' :: t => (true, t)
  | s => (false, s)

/-- The integer a text denotes when it is a decimal integer: an optional sign
followed by a non-empty run of decimal digits; `none` when the text is not a
decimal integer. -/
def specDecimalInt (s : List Char) : Option Int :=
  match signAndDigits s with
  | (neg, ds) =>
    if ds ≠ [] ∧ ds.all isDecDigit = true then
      some (if neg then -(decValFrom 0 ds : Int) else (decValFrom 0 ds : Int))
    else none

/-- The mask `0xffffffff << k` of `Network`, in 32 bits. -/
def networkMask (k : Nat) : Nat := (0xffffffff <<< k) % 2 ^ 32

/-- The integer form of the address `a.b.c.d`, octet `a` in the most
significant byte. -/
def dottedNum (a b c d : Nat) : Nat := a * 2 ^ 24 + b * 2 ^ 16 + c * 2 ^ 8 + d

/-- The integer `u` lies in 10.0.0.0 .. 10.255.255.255. -/
def inClassA (u : Nat) : Prop := dottedNum 10 0 0 0 ≤ u ∧ u ≤ dottedNum 10 255 255 255

/-- The integer `u` lies in 172.16.0.0 .. 172.31.255.255. -/
def inClassB (u : Nat) : Prop := dottedNum 172 16 0 0 ≤ u ∧ u ≤ dottedNum 172 31 255 255

/-- The integer `u` lies in 192.168.0.0 .. 192.168.255.255. -/
def inClassC (u : Nat) : Prop := dottedNum 192 168 0 0 ≤ u ∧ u ≤ dottedNum 192 168 255 255

instance (u : Nat) : Decidable (inClassA u) := by unfold inClassA; infer_instance

instance (u : Nat) : Decidable (inClassB u) := by unfold inClassB; infer_instance

instance (u : Nat) : Decidable (inClassC u) := by unfold inClassC; infer_instance

/-- The relation "not both predicates hold of `a`" between two map entries. -/
def notBoth (a : IPv4Address) (e1 e2 : List Char × (IPv4Address → Go Bool)) : Prop :=
  ¬ (e1.2 a = .ok true ∧ e2.2 a = .ok true)

/-! # Theorems -/

/-! ## Decimal rendering and its parsers -/

theorem digitChar_toNat (d : Nat) (h : d < 10) : (digitChar d).toNat = 48 + d := by
  interval_cases d <;> rfl

theorem isDecDigit_digitChar (d : Nat) (h : d < 10) : isDecDigit (digitChar d) = true := by
  interval_cases d <;> rfl

theorem fmtDigits_all_digits (fuel n : Nat) : ∀ c ∈ fmtDigits fuel n, isDecDigit c = true := by
  induction fuel generalizing n with
  | zero => intro c hc; simp [fmtDigits] at hc
  | succ k ih =>
    intro c hc
    unfold fmtDigits at hc
    split at hc
    · rename_i h
      simp at hc; subst hc; exact isDecDigit_digitChar n h
    · simp at hc
      rcases hc with hc | hc
      · exact ih _ c hc
      · subst hc; exact isDecDigit_digitChar _ (Nat.mod_lt _ (by decide))

theorem fmtDigits_ne_nil (fuel n : Nat) : fmtDigits (fuel + 1) n ≠ [] := by
  unfold fmtDigits
  split <;> simp

theorem decValFrom_append (acc : Nat) (xs ys : List Char) :
    decValFrom acc (xs ++ ys) = decValFrom (decValFrom acc xs) ys := by
  simp [decValFrom, List.foldl_append]

theorem decValFrom_fmtDigits (fuel n : Nat) (h : n < fuel) :
    decValFrom 0 (fmtDigits fuel n) = n := by
  induction fuel generalizing n with
  | zero => omega
  | succ k ih =>
    unfold fmtDigits
    split
    · rename_i h10
      simp [decValFrom, digitChar_toNat n h10]
    · rename_i h10
      rw [decValFrom_append, ih (n / 10) (by omega)]
      simp [decValFrom, digitChar_toNat (n % 10) (Nat.mod_lt _ (by decide))]
      omega

theorem le_decValFrom (acc : Nat) (ds : List Char) : acc ≤ decValFrom acc ds := by
  induction ds generalizing acc with
  | nil => simp [decValFrom]
  | cons c cs ih =>
    have := ih (acc * 10 + (c.toNat - 48))
    simp only [decValFrom, List.foldl_cons] at this ⊢
    omega

theorem dtoiLoop_digits (ds rest : List Char) (acc i : Nat)
    (hd : ∀ c ∈ ds, isDecDigit c = true) (hb : decValFrom acc ds < big) (hacc : acc < big) :
    dtoiLoop (ds ++ rest) acc i = dtoiLoop rest (decValFrom acc ds) (i + ds.length) := by
  induction ds generalizing acc i with
  | nil => simp [decValFrom]
  | cons c cs ih =>
    have hc : isDecDigit c = true := hd c (by simp)
    have hb2 : decValFrom (acc * 10 + (c.toNat - 48)) cs < big := by
      simpa [decValFrom] using hb
    have hlt : acc * 10 + (c.toNat - 48) < big :=
      lt_of_le_of_lt (le_decValFrom _ cs) hb2
    simp only [List.cons_append, dtoiLoop, hc, if_true]
    rw [if_neg (by omega)]
    change dtoiLoop (cs ++ rest) _ _ = _
    rw [ih _ _ (fun c hc => hd c (by simp [hc])) hb2 hlt]
    simp only [decValFrom, List.foldl_cons, List.length_cons]
    congr 1
    omega

theorem dtoiLoop_stop (rest : List Char) (n i : Nat) (hi : 0 < i) (hr : endsNumber rest) :
    dtoiLoop rest n i = (n, i, true) := by
  cases rest with
  | nil => simp [dtoiLoop]; omega
  | cons c cs =>
    have hc : isDecDigit c = false := hr c (by simp)
    simp [dtoiLoop, hc]; omega

theorem fmtDecimal_ne_nil (n : Nat) : fmtDecimal n ≠ [] := fmtDigits_ne_nil n n

theorem fmtDecimal_length_pos (n : Nat) : 0 < (fmtDecimal n).length :=
  List.length_pos.mpr (fmtDecimal_ne_nil n)

theorem dtoi_fmtDecimal (n : Nat) (rest : List Char) (hn : n < big) (hr : endsNumber rest) :
    dtoi (fmtDecimal n ++ rest) = (n, (fmtDecimal n).length, true) := by
  have hv : decValFrom 0 (fmtDecimal n) = n := decValFrom_fmtDigits (n + 1) n (by omega)
  unfold dtoi
  rw [dtoiLoop_digits (fmtDecimal n) rest 0 0 (fmtDigits_all_digits _ _) (by rw [hv]; exact hn)
    (by decide)]
  rw [hv, dtoiLoop_stop rest n _ (by have := fmtDecimal_length_pos n; omega) hr]
  simp

theorem digitChar_eq_zero (d : Nat) (h : d < 10) (h0 : digitChar d = '0') : d = 0 := by
  have := digitChar_toNat d h
  rw [h0] at this
  have h48 : ('0' : Char).toNat = 48 := rfl
  omega

theorem fmtDigits_head_zero (fuel n : Nat) (h : n < fuel)
    (h0 : (fmtDigits fuel n).head? = some '0') : n = 0 := by
  induction fuel generalizing n with
  | zero => omega
  | succ k ih =>
    unfold fmtDigits at h0
    split at h0
    · rename_i h10
      simp at h0
      exact digitChar_eq_zero n h10 h0
    · rename_i h10
      have hk : n / 10 < k := by omega
      obtain ⟨k', rfl⟩ : ∃ k', k = k' + 1 := ⟨k - 1, by omega⟩
      have hne := fmtDigits_ne_nil k' (n / 10)
      rw [List.head?_append_of_ne_nil _ hne] at h0
      have := ih (n / 10) hk h0
      omega

theorem fmtDecimal_zero : fmtDecimal 0 = ['0'] := rfl

theorem fmtDecimal_no_leading_zero (n : Nat) (rest : List Char) :
    (decide ((fmtDecimal n).length > 1) && decide ((fmtDecimal n ++ rest).head? = some '0'))
      = false := by
  by_cases h0 : (fmtDecimal n ++ rest).head? = some '0'
  · have h1 := h0
    rw [List.head?_append_of_ne_nil _ (fmtDecimal_ne_nil n)] at h1
    have : n = 0 := fmtDigits_head_zero (n + 1) n (by omega) h1
    subst this
    simp [fmtDecimal_zero]
  · rw [decide_eq_false h0, Bool.and_false]

theorem isDecDigit_dot : isDecDigit '.' = false := rfl

theorem endsNumber_nil : endsNumber [] := by
  intro c hc; simp at hc

theorem endsNumber_dot (t : List Char) : endsNumber ('.' :: t) := by
  intro c hc; simp at hc; subst hc; rfl

theorem parseIPv4Fields_step (k : Nat) (first : Bool) (n : Nat) (rest : List Char)
    (hn : n < 256) (hr : endsNumber rest) :
    parseIPv4Fields (k + 1) first
        ((if first then [] else ['.']) ++ fmtDecimal n ++ rest)
      = (parseIPv4Fields k false rest).map (fun r => ((Fin.ofNat n : Byte) :: r.1, r.2)) := by
  have hd := dtoi_fmtDecimal n rest (by unfold big; omega) hr
  have hz := fmtDecimal_no_leading_zero n rest
  have hpos := fmtDecimal_length_pos n
  have hdrop : List.drop (fmtDecimal n).length (fmtDecimal n ++ rest) = rest := by simp
  cases first
  · simp only [Bool.false_eq_true, if_false, List.singleton_append, List.cons_append,
      List.nil_append]
    rw [parseIPv4Fields]
    simp only [List.length_cons, Nat.add_one_ne_zero, if_false, Bool.false_eq_true, skipDot]
    rw [hd]
    simp only [Bool.not_true, Bool.false_or, decide_eq_true_eq]
    rw [if_neg (by omega)]
    rw [hz]
    simp only [Bool.false_eq_true, if_false, hdrop]
    cases parseIPv4Fields k false rest <;> rfl
  · simp only [if_true, List.nil_append]
    rw [parseIPv4Fields]
    have hlen : (fmtDecimal n ++ rest).length ≠ 0 := by
      rw [List.length_append]; omega
    simp only [hlen, ↓reduceIte]
    rw [hd]
    simp only [Bool.not_true, Bool.false_or, decide_eq_true_eq]
    rw [if_neg (by omega)]
    rw [hz]
    simp only [Bool.false_eq_true, if_false, hdrop]
    cases parseIPv4Fields k false rest <;> rfl

theorem parseIPv4_SprintfDotted (a b c d : Nat) (ha : a < 256) (hb : b < 256) (hc : c < 256)
    (hd : d < 256) :
    parseIPv4 (SprintfDotted a b c d) = IPv4 (Fin.ofNat a) (Fin.ofNat b) (Fin.ofNat c)
      (Fin.ofNat d) := by
  unfold parseIPv4 SprintfDotted
  have h4 := parseIPv4Fields_step 0 false d [] hd endsNumber_nil
  have h3 := parseIPv4Fields_step 1 false c ('.' :: fmtDecimal d) hc (endsNumber_dot _)
  have h2 := parseIPv4Fields_step 2 false b ('.' :: fmtDecimal c ++ '.' :: fmtDecimal d) hb
    (endsNumber_dot _)
  have h1 := parseIPv4Fields_step 3 true a
    ('.' :: fmtDecimal b ++ '.' :: fmtDecimal c ++ '.' :: fmtDecimal d) ha (endsNumber_dot _)
  simp only [Bool.false_eq_true, if_false, if_true, List.nil_append, List.singleton_append,
    List.append_nil, List.cons_append, List.append_assoc] at h1 h2 h3 h4
  rw [h1, h2, h3, h4]
  simp [parseIPv4Fields]

theorem ParseIPScan_digits (s ds t : List Char) (hd : ∀ c ∈ ds, isDecDigit c = true) :
    ParseIPScan s (ds ++ '.' :: t) = parseIPv4 s := by
  induction ds with
  | nil => simp [ParseIPScan]
  | cons c cs ih =>
    have hc : isDecDigit c = true := hd c (by simp)
    have h1 : c ≠ '.' := by rintro rfl; exact absurd hc (by decide)
    have h2 : c ≠ ':' := by rintro rfl; exact absurd hc (by decide)
    simp only [List.cons_append, ParseIPScan, h1, h2, if_false]
    exact ih (fun c hc => hd c (by simp [hc]))

theorem ParseIP_SprintfDotted (a b c d : Nat) (ha : a < 256) (hb : b < 256) (hc : c < 256)
    (hd : d < 256) :
    ParseIP (SprintfDotted a b c d) = IPv4 (Fin.ofNat a) (Fin.ofNat b) (Fin.ofNat c)
      (Fin.ofNat d) := by
  rw [← parseIPv4_SprintfDotted a b c d ha hb hc hd]
  unfold ParseIP
  exact ParseIPScan_digits (SprintfDotted a b c d) (fmtDecimal a) _ (fmtDigits_all_digits _ _)

theorem To4_IPv4 (a b c d : Byte) : To4 (IPv4 a b c d) = [a, b, c, d] := by
  simp [To4, IPv4, v4InV6Prefix]

theorem To4_four (a b c d : Byte) : To4 [a, b, c, d] = [a, b, c, d] := by
  simp [To4]

theorem fmtDigits_fuel (f1 f2 n : Nat) (h1 : n < f1) (h2 : n < f2) :
    fmtDigits f1 n = fmtDigits f2 n := by
  induction f1 generalizing f2 n with
  | zero => omega
  | succ k ih =>
    obtain ⟨k2, rfl⟩ : ∃ k2, f2 = k2 + 1 := ⟨f2 - 1, by omega⟩
    unfold fmtDigits
    split
    · rfl
    · rw [ih k2 (n / 10) (by omega) (by omega)]

theorem fmtDecimal_lt_ten (n : Nat) (h : n < 10) : fmtDecimal n = [digitChar n] := by
  simp [fmtDecimal, fmtDigits, h]

theorem fmtDecimal_ge_ten (n : Nat) (h : 10 ≤ n) :
    fmtDecimal n = fmtDecimal (n / 10) ++ [digitChar (n % 10)] := by
  have h10 : ¬ n < 10 := by omega
  rw [fmtDecimal, fmtDigits, if_neg h10, fmtDecimal]
  rw [fmtDigits_fuel n (n / 10 + 1) (n / 10) (by omega) (by omega)]

theorem digit_eq_digitChar (c : Char) (h : isDecDigit c = true) :
    c = digitChar (c.toNat - 48) ∧ c.toNat - 48 < 10 := by
  simp only [isDecDigit, Bool.and_eq_true, decide_eq_true_eq] at h
  refine ⟨?_, by omega⟩
  unfold digitChar
  rw [show 48 + (c.toNat - 48) = c.toNat by omega]
  exact (Char.ofNat_toNat c).symm

theorem decValFrom_pos_of_head (c : Char) (cs : List Char) (hc : isDecDigit c = true)
    (h0 : c ≠ '0') : 1 ≤ decValFrom 0 (c :: cs) := by
  have h1 : 1 ≤ c.toNat - 48 := by
    rcases digit_eq_digitChar c hc with ⟨he, hlt⟩
    by_contra hcon
    have hz : c.toNat - 48 = 0 := by omega
    rw [hz] at he
    exact h0 he
  have := le_decValFrom (0 * 10 + (c.toNat - 48)) cs
  simp only [decValFrom, List.foldl_cons] at this ⊢
  omega

theorem canonical_eq_fmtDecimal (ds : List Char) (n : Nat) (h : IsCanonicalDecimal ds n) :
    ds = fmtDecimal n := by
  induction ds using List.reverseRecOn generalizing n with
  | nil => exact absurd rfl h.1
  | append_singleton init c ih =>
    obtain ⟨_, hdig, hz, hv⟩ := h
    have hc : isDecDigit c = true := hdig c (by simp)
    obtain ⟨hce, hclt⟩ := digit_eq_digitChar c hc
    rw [decValFrom_append] at hv
    simp only [decValFrom, List.foldl_cons, List.foldl_nil] at hv
    cases init with
    | nil =>
      simp only [List.foldl_nil] at hv
      rw [fmtDecimal_lt_ten n (by omega), ← hv, Nat.zero_mul, Nat.zero_add, ← hce]
      rfl
    | cons x xs =>
      have hx : isDecDigit x = true := hdig x (by simp)
      have hx0 : x ≠ '0' := by
        intro hx0
        have := hz (by simp [hx0])
        simp at this
      have hpos := decValFrom_pos_of_head x xs hx hx0
      have hcan : IsCanonicalDecimal (x :: xs) (decValFrom 0 (x :: xs)) :=
        ⟨by simp, fun c hc => hdig c (by simp at hc ⊢; tauto),
          fun h => by simp at h; exact absurd h hx0, rfl⟩
      have hinit := ih _ hcan
      simp only [decValFrom] at hpos hinit
      have hn10 : 10 ≤ n := by omega
      rw [fmtDecimal_ge_ten n hn10]
      have hdiv : n / 10 = List.foldl (fun n c => n * 10 + (c.toNat - 48)) 0 (x :: xs) := by
        omega
      have hmod : n % 10 = c.toNat - 48 := by omega
      rw [hdiv, hmod, ← hinit, ← hce]

theorem fmtDecimal_canonical (n : Nat) : IsCanonicalDecimal (fmtDecimal n) n := by
  refine ⟨fmtDecimal_ne_nil n, fmtDigits_all_digits _ _, ?_, decValFrom_fmtDigits _ _ (by omega)⟩
  intro h0
  have : n = 0 := fmtDigits_head_zero (n + 1) n (by omega) h0
  subst this; rfl

/-! ## Splitting at the first `'/'` -/

theorem IndexSlash_ge (s : List Char) : -1 ≤ IndexSlash s := by
  induction s with
  | nil => simp [IndexSlash]
  | cons c cs ih =>
    unfold IndexSlash
    split
    · omega
    · split <;> omega

theorem IndexSlash_none (s : List Char) (h : ∀ c ∈ s, c ≠ '/') : IndexSlash s = -1 := by
  induction s with
  | nil => rfl
  | cons c cs ih =>
    have hc : c ≠ '/' := h c (by simp)
    have := ih (fun c hc => h c (by simp [hc]))
    simp [IndexSlash, hc, this]

theorem IndexSlash_append (s t : List Char) (h : ∀ c ∈ s, c ≠ '/') :
    IndexSlash (s ++ '/' :: t) = s.length := by
  induction s with
  | nil => simp [IndexSlash]
  | cons c cs ih =>
    have hc : c ≠ '/' := h c (by simp)
    have := ih (fun c hc => h c (by simp [hc]))
    show IndexSlash (c :: (cs ++ '/' :: t)) = _
    rw [IndexSlash, if_neg hc, this, if_neg (by omega)]
    simp only [List.length_cons]
    push_cast; ring

theorem digit_ne_slash (c : Char) (h : isDecDigit c = true) : c ≠ '/' := by
  rintro rfl; exact absurd h (by decide)

theorem SprintfDotted_no_slash (a b c d : Nat) : ∀ x ∈ SprintfDotted a b c d, x ≠ '/' := by
  intro x hx
  simp only [SprintfDotted, List.mem_append, List.mem_cons] at hx
  have hdig : ∀ n, x ∈ fmtDecimal n → x ≠ '/' :=
    fun n hn => digit_ne_slash x (fmtDigits_all_digits _ _ x hn)
  have hdot : x = '.' → x ≠ '/' := by rintro rfl; decide
  rcases hx with h | h | h | h | h | h | h
  · exact hdig a h
  · exact hdot h
  · exact hdig b h
  · exact hdot h
  · exact hdig c h
  · exact hdot h
  · exact hdig d h

theorem Atoi_fmtDecimal_small (p : Nat) (h : p ≤ 32) : Atoi (fmtDecimal p) = some (p : Int) := by
  interval_cases p <;> rfl

theorem Fin_ofNat_val (a : Byte) : (Fin.ofNat a.val : Byte) = a := by
  apply Fin.ext
  simp [Fin.ofNat, Nat.mod_eq_of_lt a.isLt]

theorem split_no_slash (s : List Char) (h : ∀ c ∈ s, c ≠ '/') :
    splitIPv4AddressToAddressAndPreix s = .ok (s, 32) := by
  simp [splitIPv4AddressToAddressAndPreix, IndexSlash_none s h]

theorem toNat_length_succ (s : List Char) : ((s.length : Int) + 1).toNat = s.length + 1 := by
  have h : ((s.length : Int) + 1) = ((s.length + 1 : Nat) : Int) := by push_cast; rfl
  rw [h]; exact Int.toNat_ofNat _

theorem split_with_slash (s t : List Char) (h : ∀ c ∈ s, c ≠ '/') :
    splitIPv4AddressToAddressAndPreix (s ++ '/' :: t) =
      match Atoi t with
      | none => .error .ErrInvalidPrefix
      | some p => if !validatePrefix p then .error .ErrInvalidPrefix else .ok (s, p) := by
  have hi := IndexSlash_append s t h
  have hne : ¬ ((s.length : Int) = -1) := by omega
  have hd : List.drop (s.length + 1) (s ++ '/' :: t) = t := by
    rw [List.drop_append_eq_append_drop]
    simp
  have ht : List.take s.length (s ++ '/' :: t) = s := by simp
  simp only [splitIPv4AddressToAddressAndPreix, hi, hne, if_false, toNat_length_succ,
    Int.toNat_ofNat, hd, ht]

theorem NewIPv4Address_dotted (a b c d : Byte) :
    NewIPv4Address (SprintfDotted a.val b.val c.val d.val) = .ok ⟨[a, b, c, d], 32⟩ := by
  have hs := split_no_slash _ (SprintfDotted_no_slash a.val b.val c.val d.val)
  have hp := ParseIP_SprintfDotted a.val b.val c.val d.val a.isLt b.isLt c.isLt d.isLt
  simp only [Fin_ofNat_val] at hp
  simp only [NewIPv4Address, hs, hp]
  simp [IPv4, v4InV6Prefix, To4]

theorem NewIPv4Address_cidr (a b c d : Byte) (p : Nat) (hp : p ≤ 32) :
    NewIPv4Address (SprintfDotted a.val b.val c.val d.val ++ '/' :: fmtDecimal p)
      = .ok ⟨[a, b, c, d], (p : Int)⟩ := by
  have hs := split_with_slash _ (fmtDecimal p)
    (SprintfDotted_no_slash a.val b.val c.val d.val)
  have hpar := ParseIP_SprintfDotted a.val b.val c.val d.val a.isLt b.isLt c.isLt d.isLt
  simp only [Fin_ofNat_val] at hpar
  have hv : validatePrefix (p : Int) = true := by
    simp [validatePrefix]; omega
  rw [Atoi_fmtDecimal_small p hp] at hs
  simp only [hv, Bool.not_true, Bool.false_eq_true, if_false] at hs
  simp only [NewIPv4Address, hs, hpar]
  simp [IPv4, v4InV6Prefix, To4]

theorem dotted_canonical (sa sb sc sd : List Char) (a b c d : Nat)
    (ha : IsCanonicalDecimal sa a) (hb : IsCanonicalDecimal sb b)
    (hc : IsCanonicalDecimal sc c) (hd : IsCanonicalDecimal sd d) :
    dotted sa sb sc sd = SprintfDotted a b c d := by
  rw [canonical_eq_fmtDecimal sa a ha, canonical_eq_fmtDecimal sb b hb,
    canonical_eq_fmtDecimal sc c hc, canonical_eq_fmtDecimal sd d hd]
  rfl

/-- C1. For octets `a b c d` and a prefix length `p` in `0..32`, all written as
canonical decimal numerals `sa sb sc sd sp`: `NewIPv4Address` succeeds on
`sa.sb.sc.sd/sp` with the four octets `a b c d` and `Prefix() = p`, and on
`sa.sb.sc.sd` (no `'/'`) with the same octets and `Prefix() = 32`. -/
theorem NewIPv4Address_canonical (sa sb sc sd sp : List Char) (a b c d : Byte) (p : Nat)
    (ha : IsCanonicalDecimal sa a.val) (hb : IsCanonicalDecimal sb b.val)
    (hc : IsCanonicalDecimal sc c.val) (hd : IsCanonicalDecimal sd d.val)
    (hsp : IsCanonicalDecimal sp p) (hp : p ≤ 32) :
    (∃ r, NewIPv4Address (dotted sa sb sc sd ++ '/' :: sp) = .ok r
        ∧ r.n = [a, b, c, d] ∧ r.Prefix = (p : Int))
    ∧ (∃ r, NewIPv4Address (dotted sa sb sc sd) = .ok r
        ∧ r.n = [a, b, c, d] ∧ r.Prefix = 32) := by
  rw [dotted_canonical sa sb sc sd _ _ _ _ ha hb hc hd, canonical_eq_fmtDecimal sp p hsp]
  exact ⟨⟨_, NewIPv4Address_cidr a b c d p hp, rfl, rfl⟩,
    ⟨_, NewIPv4Address_dotted a b c d, rfl, rfl⟩⟩

theorem NewIPv4Address_canonical_witness :
    (∃ r, NewIPv4Address (dotted "127".toList "0".toList "0".toList "1".toList
          ++ '/' :: "24".toList) = .ok r
        ∧ r.n = [127, 0, 0, 1] ∧ r.Prefix = ((24 : Nat) : Int))
    ∧ (∃ r, NewIPv4Address (dotted "127".toList "0".toList "0".toList "1".toList) = .ok r
        ∧ r.n = [127, 0, 0, 1] ∧ r.Prefix = 32) :=
  NewIPv4Address_canonical "127".toList "0".toList "0".toList "1".toList "24".toList
    127 0 0 1 24 (by decide) (by decide) (by decide) (by decide) (by decide) (by decide)

/-! ## `NewIPv4Address` on texts it should reject -/

theorem atoiFast_sound (ds : List Char) (acc n : Nat) (h : atoiFast ds acc = some n) :
    ds.all isDecDigit = true ∧ n = decValFrom acc ds := by
  induction ds generalizing acc with
  | nil => simp [atoiFast] at h; simp [decValFrom, h]
  | cons c cs ih =>
    unfold atoiFast at h
    split at h
    · rename_i hc
      have := ih _ h
      simp [hc, this.1, decValFrom] at this ⊢
      exact this
    · exact absurd h (by simp)

theorem parseUintLoop_sound (ds : List Char) (acc n : Nat) (h : parseUintLoop ds acc = some n) :
    ds.all isDecDigit = true ∧ n = decValFrom acc ds := by
  induction ds generalizing acc with
  | nil => simp [parseUintLoop] at h; simp [decValFrom, h]
  | cons c cs ih =>
    unfold parseUintLoop at h
    split at h
    · rename_i hc
      split at h
      · exact absurd h (by simp)
      · split at h
        · exact absurd h (by simp)
        · have := ih _ h
          simp [hc, this.1, decValFrom] at this ⊢
          exact this
    · exact absurd h (by simp)

theorem specDecimalInt_of_digits (c : Char) (t : List Char) (n : Nat)
    (hbody : (if c = '-' ∨ c = '+' then t else c :: t) ≠ [])
    (hall : (if c = '-' ∨ c = '+' then t else c :: t).all isDecDigit = true)
    (hn : n = decValFrom 0 (if c = '-' ∨ c = '+' then t else c :: t)) :
    specDecimalInt (c :: t) = some (if c = '-' then -(n : Int) else (n : Int)) := by
  by_cases hm : c = '-'
  · subst hm
    simp only [true_or, if_true] at hbody hall hn
    simp [specDecimalInt, signAndDigits, hbody, hall, hn]
  · by_cases hp : c = '+'
    · subst hp
      simp only [or_true, if_true] at hbody hall hn
      simp [specDecimalInt, signAndDigits, hbody, hall, hn]
    · simp only [hm, hp, or_self, if_false] at hbody hall hn
      have hs : signAndDigits (c :: t) = (false, c :: t) := by
        unfold signAndDigits
        split
        · rename_i heq; simp at heq; exact absurd heq.1 hp
        · rename_i heq; simp at heq; exact absurd heq.1 hm
        · rfl
      simp only [specDecimalInt, hs]
      simp [hall, hn, hm]

theorem ParseInt_sound (s : List Char) (v : Int) (h : ParseInt s = some v) :
    specDecimalInt s = some v := by
  cases s with
  | nil => simp [ParseInt] at h
  | cons c t =>
    simp only [ParseInt] at h
    split at h
    · exact absurd h (by simp)
    · rename_i hbody
      split at h
      · exact absurd h (by simp)
      · rename_i un hun
        have hs := parseUintLoop_sound _ 0 un hun
        split at h
        · exact absurd h (by simp)
        · split at h
          · exact absurd h (by simp)
          · simp only [Option.some.injEq] at h
            have hb : (if c = '-' ∨ c = '+' then t else c :: t) = (if c = '+' ∨ c = '-' then t else c :: t) := by
              simp only [or_comm]
            have := specDecimalInt_of_digits c t un (by rw [hb]; exact hbody)
              (by rw [hb]; exact hs.1) (by rw [hb]; exact hs.2)
            rw [this, ← h]
            simp

theorem Atoi_sound (s : List Char) (v : Int) (h : Atoi s = some v) :
    specDecimalInt s = some v := by
  unfold Atoi at h
  split at h
  · cases s with
    | nil => simp at h
    | cons c t =>
      simp only at h
      generalize hb : (if c = '-' ∨ c = '+' then t else c :: t) = body at h
      by_cases hlen : body.length < 1
      · rw [if_pos hlen] at h; exact absurd h (by simp)
      · rw [if_neg hlen] at h
        cases hf : atoiFast body 0 with
        | none => rw [hf] at h; exact absurd h (by simp)
        | some n =>
          rw [hf] at h
          simp only [Option.some.injEq] at h
          have hs := atoiFast_sound body 0 n hf
          have hne : body ≠ [] := by
            intro he; rw [he] at hlen; simp at hlen
          rw [← hb] at hs hne
          rw [specDecimalInt_of_digits c t n hne hs.1 hs.2, ← h]
  · exact ParseInt_sound s v h

/-- C2 (failing input). On the IPv6 literal `::1` the function `NewIPv4Address`
returns no error: `net.ParseIP` accepts the text and `To4` of the result is
nil, so the address returned has a nil `n`, on which `String` panics.  The
same path accepts the IPv4-mapped literal `::ffff:1.2.3.4`. -/
theorem NewIPv4Address_ipv6_literal :
    NewIPv4Address "::1".toList = .ok ⟨[], 32⟩
      ∧ (IPv4Address.mk [] 32).String = .error .indexOutOfRange
      ∧ NewIPv4Address "::ffff:1.2.3.4".toList = .ok ⟨[1, 2, 3, 4], 32⟩ := by
  decide

/-- C3. For every text with a `'/'`, `pre` being the text before the first
`'/'` and `t` the text after it: if `t` is not a decimal integer in `[0, 32]`,
`NewIPv4Address` fails with `ErrInvalidPrefix`, whatever `pre` is. -/
theorem NewIPv4Address_invalid_prefix (pre t : List Char) (hpre : ∀ c ∈ pre, c ≠ '/')
    (ht : ¬ ∃ v : Int, specDecimalInt t = some v ∧ 0 ≤ v ∧ v ≤ 32) :
    NewIPv4Address (pre ++ '/' :: t) = .error .ErrInvalidPrefix := by
  have hs := split_with_slash pre t hpre
  cases hA : Atoi t with
  | none =>
    rw [hA] at hs
    simp [NewIPv4Address, hs]
  | some p =>
    rw [hA] at hs
    have hspec := Atoi_sound t p hA
    have hv : validatePrefix p = false := by
      by_contra hcon
      have hval : validatePrefix p = true := by simpa using hcon
      simp only [validatePrefix, Bool.and_eq_true, decide_eq_true_eq] at hval
      exact ht ⟨p, hspec, by omega, by omega⟩
    simp [NewIPv4Address, hs, hv]

theorem NewIPv4Address_invalid_prefix_witness :
    NewIPv4Address ("127.0.0.1".toList ++ '/' :: "a".toList) = .error .ErrInvalidPrefix :=
  NewIPv4Address_invalid_prefix "127.0.0.1".toList "a".toList (by decide)
    (by
      rintro ⟨v, hv, _⟩
      rw [show specDecimalInt "a".toList = none by decide] at hv
      exact absurd hv (by simp))


/-! ## Integer form -/

theorem uint32Loop_four (a b c d : Byte) :
    uint32Loop [a, b, c, d] 0 0 = a.val * 2 ^ 24 + b.val * 2 ^ 16 + c.val * 2 ^ 8 + d.val := by
  have ha := a.isLt
  have hb := b.isLt
  have hc := c.isLt
  have hd := d.isLt
  simp only [uint32Loop, Nat.shiftLeft_eq]
  norm_num
  omega

theorem Uint32_four (a b c d : Byte) (p : Int) :
    (IPv4Address.mk [a, b, c, d] p).Uint32
      = a.val * 2 ^ 24 + b.val * 2 ^ 16 + c.val * 2 ^ 8 + d.val := by
  simp only [IPv4Address.Uint32, To4_four, uint32Loop_four]

theorem Uint32_sixteen (a b c d : Byte) (p : Int) :
    (IPv4Address.mk (IPv4 a b c d) p).Uint32
      = a.val * 2 ^ 24 + b.val * 2 ^ 16 + c.val * 2 ^ 8 + d.val := by
  simp only [IPv4Address.Uint32, To4_IPv4, uint32Loop_four]

theorem To4_length (ip : List Byte) : (To4 ip).length = 4 ∨ To4 ip = [] := by
  unfold To4
  split
  · left; assumption
  · split
    · rename_i h; left; simp [List.length_drop, h.1]
    · right; rfl

theorem Uint32_lt (a : IPv4Address) : a.Uint32 < 2 ^ 32 := by
  unfold IPv4Address.Uint32
  rcases To4_length a.n with h | h
  · match hl : To4 a.n, h with
    | [x, y, z, w], _ =>
      rw [uint32Loop_four]
      have := x.isLt; have := y.isLt; have := z.isLt; have := w.isLt
      omega
  · rw [h]; simp [uint32Loop]

theorem byte_and_lt (n k : Nat) : (n >>> k) &&& 0xff < 256 := by
  have := Nat.and_pow_two_sub_one_eq_mod (n >>> k) 8
  norm_num at this
  rw [this]
  exact Nat.mod_lt _ (by decide)

theorem ToIPv4AddressWithPrefix_eq (n : Nat) (p : Int) (hp : 0 ≤ p ∧ p ≤ 32) :
    ToIPv4AddressWithPrefix n p = some ⟨[Fin.ofNat ((n >>> 24) &&& 0xff),
      Fin.ofNat ((n >>> 16) &&& 0xff), Fin.ofNat ((n >>> 8) &&& 0xff),
      Fin.ofNat (n &&& 0xff)], p⟩ := by
  have hv : validatePrefix p = true := by simp [validatePrefix]; omega
  have h3 : n &&& 0xff < 256 := by simpa using byte_and_lt n 0
  have hpar := ParseIP_SprintfDotted _ _ _ _ (byte_and_lt n 24) (byte_and_lt n 16)
    (byte_and_lt n 8) h3
  simp only [ToIPv4AddressWithPrefix, hv, Bool.not_true, Bool.false_eq_true, if_false, hpar,
    To4_IPv4]

theorem ToIPv4AddressWithPrefix_none (n : Nat) (p : Int) (hp : ¬ (0 ≤ p ∧ p ≤ 32)) :
    ToIPv4AddressWithPrefix n p = none := by
  have hv : validatePrefix p = false := by
    simp only [validatePrefix, Bool.and_eq_false_iff, decide_eq_false_iff_not]
    omega
  simp [ToIPv4AddressWithPrefix, hv]

theorem ToIPv4AddressWithPrefix_Uint32 (n : Nat) (p : Int) (hp : 0 ≤ p ∧ p ≤ 32)
    (hn : n < 2 ^ 32) :
    ∃ r, ToIPv4AddressWithPrefix n p = some r ∧ r.prefixLen = p ∧ r.Uint32 = n := by
  refine ⟨_, ToIPv4AddressWithPrefix_eq n p hp, rfl, ?_⟩
  rw [Uint32_four]
  have h8 : ∀ x, x &&& 0xff = x % 256 := by
    intro x
    have := Nat.and_pow_two_sub_one_eq_mod x 8
    norm_num at this
    exact this
  simp only [Fin.ofNat, h8, Nat.shiftRight_eq_div_pow]
  norm_num
  omega

/-- C4. Integer round trip: for every 32-bit unsigned `n`, `ToIPv4Address n` is
a non-nil address with prefix 32 whose `Uint32()` is `n`, and for every `p` in
`0..32`, `ToIPv4AddressWithPrefix n p` is a non-nil address with `Prefix() = p`
whose `Uint32()` is `n`. -/
theorem ToIPv4Address_Uint32_roundtrip (n : Nat) (hn : n < 2 ^ 32) :
    (∃ r, ToIPv4Address n = some r ∧ r.Prefix = 32 ∧ r.Uint32 = n)
    ∧ ∀ p : Int, 0 ≤ p → p ≤ 32 →
        ∃ r, ToIPv4AddressWithPrefix n p = some r ∧ r.Prefix = p ∧ r.Uint32 = n :=
  ⟨ToIPv4AddressWithPrefix_Uint32 n 32 (by omega) hn,
    fun p h0 h32 => ToIPv4AddressWithPrefix_Uint32 n p ⟨h0, h32⟩ hn⟩

theorem ToIPv4Address_Uint32_roundtrip_witness :
    (∃ r, ToIPv4Address 123456789 = some r ∧ r.Prefix = 32 ∧ r.Uint32 = 123456789)
    ∧ ∀ p : Int, 0 ≤ p → p ≤ 32 →
        ∃ r, ToIPv4AddressWithPrefix 123456789 p = some r ∧ r.Prefix = p
          ∧ r.Uint32 = 123456789 :=
  ToIPv4Address_Uint32_roundtrip 123456789 (by decide)

/-- C5. String round trip: for every canonical dotted-decimal text
`sa.sb.sc.sd` (four canonical decimal numerals of octets, no `'/'` suffix),
`NewIPv4Address` succeeds and `String()` of the result is the text itself. -/
theorem NewIPv4Address_String_roundtrip (sa sb sc sd : List Char) (a b c d : Byte)
    (ha : IsCanonicalDecimal sa a.val) (hb : IsCanonicalDecimal sb b.val)
    (hc : IsCanonicalDecimal sc c.val) (hd : IsCanonicalDecimal sd d.val) :
    ∃ r, NewIPv4Address (dotted sa sb sc sd) = .ok r
      ∧ r.String = .ok (dotted sa sb sc sd) := by
  rw [dotted_canonical sa sb sc sd _ _ _ _ ha hb hc hd]
  exact ⟨_, NewIPv4Address_dotted a b c d, rfl⟩

theorem NewIPv4Address_String_roundtrip_witness :
    ∃ r, NewIPv4Address (dotted "192".toList "168".toList "0".toList "1".toList) = .ok r
      ∧ r.String = .ok (dotted "192".toList "168".toList "0".toList "1".toList) :=
  NewIPv4Address_String_roundtrip "192".toList "168".toList "0".toList "1".toList
    192 168 0 1 (by decide) (by decide) (by decide) (by decide)

/-- C6. For every address with octets `o0 o1 o2 o3`, stored in the 4-byte form
or in the 16-byte IPv4-in-IPv6 form of `net.ParseIP`, and whatever its prefix,
`Uint32()` is `o0 * 2^24 + o1 * 2^16 + o2 * 2^8 + o3`; the method is total, and
127.0.0.1 gives 2130706433, 255.255.255.255 gives 4294967295. -/
theorem Uint32_packs_octets (o0 o1 o2 o3 : Byte) (p : Int) :
    (IPv4Address.mk [o0, o1, o2, o3] p).Uint32
        = o0.val * 2 ^ 24 + o1.val * 2 ^ 16 + o2.val * 2 ^ 8 + o3.val
    ∧ (IPv4Address.mk (IPv4 o0 o1 o2 o3) p).Uint32
        = o0.val * 2 ^ 24 + o1.val * 2 ^ 16 + o2.val * 2 ^ 8 + o3.val
    ∧ (IPv4Address.mk (ParseIP "127.0.0.1".toList) p).Uint32 = 2130706433
    ∧ (IPv4Address.mk (ParseIP "255.255.255.255".toList) p).Uint32 = 4294967295 :=
  ⟨Uint32_four o0 o1 o2 o3 p, Uint32_sixteen o0 o1 o2 o3 p,
    by rw [show ParseIP "127.0.0.1".toList = IPv4 127 0 0 1 by decide, Uint32_sixteen]; rfl,
    by rw [show ParseIP "255.255.255.255".toList = IPv4 255 255 255 255 by decide,
      Uint32_sixteen]; rfl⟩

/-! ## Network and broadcast -/

theorem wrapInt_small (x : Int) (h0 : -(2 ^ 63) ≤ x) (h1 : x < 2 ^ 63) : wrapInt x = x := by
  unfold wrapInt
  norm_num at h0 h1 ⊢
  omega

theorem shl32_sub (x : Nat) (p : Int) (hp : 0 ≤ p ∧ p ≤ 32) :
    shl32 x (wrapInt (32 - p)) = .ok ((x <<< (32 - p).toNat) % 2 ^ 32) := by
  rw [wrapInt_small (32 - p) (by norm_num; omega) (by norm_num; omega)]
  unfold shl32
  rw [if_neg (by omega)]

theorem testBit_networkMask (k i : Nat) :
    (networkMask k).testBit i = (decide (i < 32) && decide (k ≤ i)) := by
  unfold networkMask
  rw [show (0xffffffff : Nat) = 2 ^ 32 - 1 by norm_num]
  simp only [Nat.testBit_mod_two_pow, Nat.testBit_shiftLeft, Nat.testBit_two_pow_sub_one]
  by_cases h1 : i < 32 <;> by_cases h2 : k ≤ i <;> simp [h1, h2]
  omega

theorem broadcastMask_eq (k : Nat) (hk : k ≤ 32) :
    ((1 <<< k) % 2 ^ 32 + 2 ^ 32 - 1) % 2 ^ 32 = 2 ^ k - 1 := by
  interval_cases k <;> rfl

theorem Network_eq (a : IPv4Address) (hp : 0 ≤ a.prefixLen ∧ a.prefixLen ≤ 32) :
    a.Network = .ok (ToIPv4AddressWithPrefix
      (a.Uint32 &&& networkMask (32 - a.prefixLen).toNat) a.prefixLen) := by
  simp only [IPv4Address.Network, shl32_sub _ _ hp, networkMask]

theorem Broadcast_eq (a : IPv4Address) (hp : 0 ≤ a.prefixLen ∧ a.prefixLen ≤ 32) :
    a.Broadcast = .ok (ToIPv4AddressWithPrefix
      (a.Uint32 ||| (2 ^ (32 - a.prefixLen).toNat - 1)) a.prefixLen) := by
  simp only [IPv4Address.Broadcast, shl32_sub _ _ hp]
  rw [broadcastMask_eq _ (by omega)]

theorem network_lt (u k : Nat) (hu : u < 2 ^ 32) : u &&& networkMask k < 2 ^ 32 :=
  lt_of_le_of_lt Nat.and_le_left hu

theorem broadcast_lt (u k : Nat) (hu : u < 2 ^ 32) (hk : k ≤ 32) :
    u ||| (2 ^ k - 1) < 2 ^ 32 := by
  apply Nat.or_lt_two_pow hu
  have : 2 ^ k ≤ 2 ^ 32 := Nat.pow_le_pow_right (by decide) hk
  have : 0 < 2 ^ k := Nat.two_pow_pos k
  omega

theorem Network_spec (a : IPv4Address) (hp : 0 ≤ a.prefixLen ∧ a.prefixLen ≤ 32) :
    ∃ r, a.Network = .ok (some r) ∧ r.prefixLen = a.prefixLen
      ∧ r.Uint32 = a.Uint32 &&& networkMask (32 - a.prefixLen).toNat := by
  obtain ⟨r, hr, hpr, hu⟩ := ToIPv4AddressWithPrefix_Uint32
    (a.Uint32 &&& networkMask (32 - a.prefixLen).toNat) a.prefixLen hp
    (network_lt _ _ (Uint32_lt a))
  exact ⟨r, by rw [Network_eq a hp, hr], hpr, hu⟩

theorem Broadcast_spec (a : IPv4Address) (hp : 0 ≤ a.prefixLen ∧ a.prefixLen ≤ 32) :
    ∃ r, a.Broadcast = .ok (some r) ∧ r.prefixLen = a.prefixLen
      ∧ r.Uint32 = a.Uint32 ||| (2 ^ (32 - a.prefixLen).toNat - 1) := by
  obtain ⟨r, hr, hpr, hu⟩ := ToIPv4AddressWithPrefix_Uint32
    (a.Uint32 ||| (2 ^ (32 - a.prefixLen).toNat - 1)) a.prefixLen hp
    (broadcast_lt _ _ (Uint32_lt a) (by omega))
  exact ⟨r, by rw [Broadcast_eq a hp, hr], hpr, hu⟩

theorem testBit_Uint32_high (a : IPv4Address) (i : Nat) (hi : 32 ≤ i) :
    a.Uint32.testBit i = false :=
  Nat.testBit_lt_two_pow (lt_of_lt_of_le (Uint32_lt a) (Nat.pow_le_pow_right (by decide) hi))

/-- C7. For every address `a` with prefix `p` in `0..32`, `a.Network()` is a
non-nil address with the same prefix whose `Uint32()` is
`a.Uint32() AND (0xFFFFFFFF << (32 - p))` computed in 32 bits, that is
`a.Uint32()` with the lowest `32 - p` bits cleared and the other bits kept; at
`p = 0` the mask is 0 and the network is 0.0.0.0, at `p = 32` the network has
the integer form of `a` itself. -/
theorem Network_clears_host_bits (a : IPv4Address)
    (hp : 0 ≤ a.prefixLen ∧ a.prefixLen ≤ 32) :
    ∃ r, a.Network = .ok (some r) ∧ r.Prefix = a.Prefix
      ∧ r.Uint32 = a.Uint32 &&& ((0xffffffff <<< (32 - a.prefixLen).toNat) % 2 ^ 32)
      ∧ (∀ i, r.Uint32.testBit i
          = (decide ((32 - a.prefixLen).toNat ≤ i) && a.Uint32.testBit i))
      ∧ (a.prefixLen = 0 → (0xffffffff <<< 32) % 2 ^ 32 = 0 ∧ r.n = [0, 0, 0, 0]
          ∧ r.String = .ok "0.0.0.0".toList)
      ∧ (a.prefixLen = 32 → r.Uint32 = a.Uint32) := by
  obtain ⟨r, hr, hpr, hu⟩ := Network_spec a hp
  have hbits : ∀ i, r.Uint32.testBit i
      = (decide ((32 - a.prefixLen).toNat ≤ i) && a.Uint32.testBit i) := by
    intro i
    rw [hu, Nat.testBit_and, testBit_networkMask]
    by_cases h32 : i < 32
    · simp [h32, Bool.and_comm]
    · simp [h32, testBit_Uint32_high a i (by omega)]
  refine ⟨r, hr, hpr, hu, hbits, ?_, ?_⟩
  · intro h0
    have hmask : networkMask (32 - a.prefixLen).toNat = 0 := by rw [h0]; rfl
    have hr0 : a.Network = .ok (ToIPv4AddressWithPrefix 0 0) := by
      rw [Network_eq a hp, hmask, Nat.and_zero, h0]
    rw [hr] at hr0
    have hrr : r = ⟨[0, 0, 0, 0], 0⟩ := by
      have h1 : some r = ToIPv4AddressWithPrefix 0 0 := by
        simpa using hr0
      have h2 : ToIPv4AddressWithPrefix 0 0 = some ⟨[0, 0, 0, 0], 0⟩ := by decide
      rw [h2] at h1
      exact Option.some.inj h1
    subst hrr
    exact ⟨rfl, rfl, rfl⟩
  · intro h32
    apply Nat.eq_of_testBit_eq
    intro i
    rw [hbits i, h32]
    simp

theorem Network_clears_host_bits_witness :
    ∃ r, (IPv4Address.mk [7, 91, 205, 21] 24).Network = .ok (some r)
      ∧ r.Prefix = (IPv4Address.mk [7, 91, 205, 21] 24).Prefix
      ∧ r.Uint32 = (IPv4Address.mk [7, 91, 205, 21] 24).Uint32
          &&& ((0xffffffff <<< (32 - (IPv4Address.mk [7, 91, 205, 21] 24).prefixLen).toNat)
            % 2 ^ 32)
      ∧ (∀ i, r.Uint32.testBit i
          = (decide ((32 - (IPv4Address.mk [7, 91, 205, 21] 24).prefixLen).toNat ≤ i)
              && (IPv4Address.mk [7, 91, 205, 21] 24).Uint32.testBit i))
      ∧ ((IPv4Address.mk [7, 91, 205, 21] 24).prefixLen = 0 →
          (0xffffffff <<< 32) % 2 ^ 32 = 0 ∧ r.n = [0, 0, 0, 0]
          ∧ r.String = .ok "0.0.0.0".toList)
      ∧ ((IPv4Address.mk [7, 91, 205, 21] 24).prefixLen = 32 →
          r.Uint32 = (IPv4Address.mk [7, 91, 205, 21] 24).Uint32) :=
  Network_clears_host_bits ⟨[7, 91, 205, 21], 24⟩ (by decide)

/-- C8. For every address `a` with prefix `p` in `0..32`, `a.Broadcast()` is a
non-nil address with the same prefix whose `Uint32()` is
`a.Uint32() OR (2^(32 - p) - 1)`, that is `a.Uint32()` with the lowest `32 - p`
bits set and the other bits kept; at `p = 0` the broadcast is 255.255.255.255,
at `p = 32` it has the integer form of `a` itself. -/
theorem Broadcast_sets_host_bits (a : IPv4Address)
    (hp : 0 ≤ a.prefixLen ∧ a.prefixLen ≤ 32) :
    ∃ r, a.Broadcast = .ok (some r) ∧ r.Prefix = a.Prefix
      ∧ r.Uint32 = a.Uint32 ||| (2 ^ (32 - a.prefixLen).toNat - 1)
      ∧ (∀ i, r.Uint32.testBit i
          = (decide (i < (32 - a.prefixLen).toNat) || a.Uint32.testBit i))
      ∧ (a.prefixLen = 0 → r.n = [255, 255, 255, 255]
          ∧ r.String = .ok "255.255.255.255".toList)
      ∧ (a.prefixLen = 32 → r.Uint32 = a.Uint32) := by
  obtain ⟨r, hr, hpr, hu⟩ := Broadcast_spec a hp
  have hbits : ∀ i, r.Uint32.testBit i
      = (decide (i < (32 - a.prefixLen).toNat) || a.Uint32.testBit i) := by
    intro i
    rw [hu, Nat.testBit_or, Nat.testBit_two_pow_sub_one, Bool.or_comm]
  refine ⟨r, hr, hpr, hu, hbits, ?_, ?_⟩
  · intro h0
    have hall : a.Uint32 ||| (2 ^ (32 - a.prefixLen).toNat - 1) = 2 ^ 32 - 1 := by
      apply Nat.eq_of_testBit_eq
      intro i
      rw [Nat.testBit_or, Nat.testBit_two_pow_sub_one, Nat.testBit_two_pow_sub_one, h0]
      by_cases h32 : i < 32
      · have : i < (32 - (0 : Int)).toNat := by simpa using h32
        simp [h32, this]
      · have : ¬ i < (32 - (0 : Int)).toNat := by simpa using h32
        simp [h32, this, testBit_Uint32_high a i (by omega)]
    have hr0 : a.Broadcast = .ok (ToIPv4AddressWithPrefix (2 ^ 32 - 1) 0) := by
      rw [Broadcast_eq a hp, hall, h0]
    rw [hr] at hr0
    have hrr : r = ⟨[255, 255, 255, 255], 0⟩ := by
      have h1 : some r = ToIPv4AddressWithPrefix (2 ^ 32 - 1) 0 := by
        simpa using hr0
      have h2 : ToIPv4AddressWithPrefix (2 ^ 32 - 1) 0 = some ⟨[255, 255, 255, 255], 0⟩ := by
        decide
      rw [h2] at h1
      exact Option.some.inj h1
    subst hrr
    exact ⟨rfl, rfl⟩
  · intro h32
    apply Nat.eq_of_testBit_eq
    intro i
    rw [hbits i, h32]
    simp

theorem Broadcast_sets_host_bits_witness :
    ∃ r, (IPv4Address.mk [7, 91, 205, 21] 12).Broadcast = .ok (some r)
      ∧ r.Prefix = (IPv4Address.mk [7, 91, 205, 21] 12).Prefix
      ∧ r.Uint32 = (IPv4Address.mk [7, 91, 205, 21] 12).Uint32
          ||| (2 ^ (32 - (IPv4Address.mk [7, 91, 205, 21] 12).prefixLen).toNat - 1)
      ∧ (∀ i, r.Uint32.testBit i
          = (decide (i < (32 - (IPv4Address.mk [7, 91, 205, 21] 12).prefixLen).toNat)
              || (IPv4Address.mk [7, 91, 205, 21] 12).Uint32.testBit i))
      ∧ ((IPv4Address.mk [7, 91, 205, 21] 12).prefixLen = 0 →
          r.n = [255, 255, 255, 255] ∧ r.String = .ok "255.255.255.255".toList)
      ∧ ((IPv4Address.mk [7, 91, 205, 21] 12).prefixLen = 32 →
          r.Uint32 = (IPv4Address.mk [7, 91, 205, 21] 12).Uint32) :=
  Broadcast_sets_host_bits ⟨[7, 91, 205, 21], 12⟩ (by decide)

/-! ## Containment and successor -/

theorem network_le (u k : Nat) : u &&& networkMask k ≤ u := Nat.and_le_left

theorem le_broadcast (u k : Nat) : u ≤ u ||| (2 ^ k - 1) := by
  apply Nat.le_of_testBit
  intro i hi
  simp [hi]

theorem Contains_eq (a nw bc o : IPv4Address) (hn : a.Network = .ok (some nw))
    (hb : a.Broadcast = .ok (some bc)) :
    a.Contains (some o) = .ok (decide (nw.Uint32 ≤ o.Uint32 ∧ o.Uint32 ≤ bc.Uint32)) := by
  simp only [IPv4Address.Contains, hn, hb, ptrUint32]
  by_cases h1 : nw.Uint32 ≤ o.Uint32
  · simp [h1]
  · simp [h1]

/-- C9. Containment consistency: for every address `a` with prefix in `0..32`,
`a.Network().Uint32() <= a.Uint32() <= a.Broadcast().Uint32()`, `Contains` is
the inclusive test of `[Network, Broadcast]`, and `a.Contains(a)`,
`a.Contains(a.Network())` and `a.Contains(a.Broadcast())` are all true. -/
theorem Contains_consistent (a : IPv4Address) (hp : 0 ≤ a.prefixLen ∧ a.prefixLen ≤ 32) :
    ∃ nw bc, a.Network = .ok (some nw) ∧ a.Broadcast = .ok (some bc)
      ∧ nw.Uint32 ≤ a.Uint32 ∧ a.Uint32 ≤ bc.Uint32
      ∧ (∀ o : IPv4Address, a.Contains (some o)
          = .ok (decide (nw.Uint32 ≤ o.Uint32 ∧ o.Uint32 ≤ bc.Uint32)))
      ∧ a.Contains (some a) = .ok true
      ∧ a.Contains (some nw) = .ok true
      ∧ a.Contains (some bc) = .ok true := by
  obtain ⟨nw, hn, _, hnu⟩ := Network_spec a hp
  obtain ⟨bc, hb, _, hbu⟩ := Broadcast_spec a hp
  have h1 : nw.Uint32 ≤ a.Uint32 := by rw [hnu]; exact network_le _ _
  have h2 : a.Uint32 ≤ bc.Uint32 := by rw [hbu]; exact le_broadcast _ _
  refine ⟨nw, bc, hn, hb, h1, h2, fun o => Contains_eq a nw bc o hn hb, ?_, ?_, ?_⟩
  · rw [Contains_eq a nw bc a hn hb]; simp [h1, h2]
  · rw [Contains_eq a nw bc nw hn hb]
    have : nw.Uint32 ≤ bc.Uint32 := le_trans h1 h2
    simp [this]
  · rw [Contains_eq a nw bc bc hn hb]
    have : nw.Uint32 ≤ bc.Uint32 := le_trans h1 h2
    simp [this]

theorem Contains_consistent_witness :
    ∃ nw bc, (IPv4Address.mk [192, 168, 0, 1] 24).Network = .ok (some nw)
      ∧ (IPv4Address.mk [192, 168, 0, 1] 24).Broadcast = .ok (some bc)
      ∧ nw.Uint32 ≤ (IPv4Address.mk [192, 168, 0, 1] 24).Uint32
      ∧ (IPv4Address.mk [192, 168, 0, 1] 24).Uint32 ≤ bc.Uint32
      ∧ (∀ o : IPv4Address, (IPv4Address.mk [192, 168, 0, 1] 24).Contains (some o)
          = .ok (decide (nw.Uint32 ≤ o.Uint32 ∧ o.Uint32 ≤ bc.Uint32)))
      ∧ (IPv4Address.mk [192, 168, 0, 1] 24).Contains
          (some (IPv4Address.mk [192, 168, 0, 1] 24)) = .ok true
      ∧ (IPv4Address.mk [192, 168, 0, 1] 24).Contains (some nw) = .ok true
      ∧ (IPv4Address.mk [192, 168, 0, 1] 24).Contains (some bc) = .ok true :=
  Contains_consistent ⟨[192, 168, 0, 1], 24⟩ (by decide)

theorem Next_eq (a bc : IPv4Address) (hb : a.Broadcast = .ok (some bc)) :
    a.Next = if a.Uint32 ≥ bc.Uint32 then .ok none
      else .ok (ToIPv4AddressWithPrefix ((a.Uint32 + 1) % 2 ^ 32) a.prefixLen) := by
  simp only [IPv4Address.Next, hb, ptrUint32]

theorem Next_at_broadcast (a : IPv4Address) (hp : 0 ≤ a.prefixLen ∧ a.prefixLen ≤ 32)
    (h : a.Uint32 = a.Uint32 ||| (2 ^ (32 - a.prefixLen).toNat - 1)) : a.Next = .ok none := by
  obtain ⟨bc, hb, _, hbu⟩ := Broadcast_spec a hp
  rw [Next_eq a bc hb, if_pos (by rw [hbu]; exact le_of_eq h.symm)]

/-- C10. For every address `a` with prefix `p` in `0..32`: `a.Next()` is nil
exactly when `a.Uint32()` equals `a.Broadcast().Uint32()`; otherwise it is the
address with integer `a.Uint32() + 1` and the same prefix, which `a` contains.
`a.Broadcast().Next()` is nil, and `Next` of an address with integer
`0xffffffff` is nil (no wrap-around to 0.0.0.0). -/
theorem Next_within_block (a : IPv4Address) (hp : 0 ≤ a.prefixLen ∧ a.prefixLen ≤ 32) :
    ∃ bc, a.Broadcast = .ok (some bc)
      ∧ (a.Next = .ok none ↔ a.Uint32 = bc.Uint32)
      ∧ (a.Uint32 ≠ bc.Uint32 →
          ∃ r, a.Next = .ok (some r) ∧ r.Uint32 = a.Uint32 + 1 ∧ r.Prefix = a.Prefix
            ∧ a.Contains (some r) = .ok true)
      ∧ bc.Next = .ok none
      ∧ (a.Uint32 = 0xffffffff → a.Next = .ok none) := by
  obtain ⟨nw, hn, _, hnu⟩ := Network_spec a hp
  obtain ⟨bc, hb, hbp, hbu⟩ := Broadcast_spec a hp
  have h1 : nw.Uint32 ≤ a.Uint32 := by rw [hnu]; exact network_le _ _
  have h2 : a.Uint32 ≤ bc.Uint32 := by rw [hbu]; exact le_broadcast _ _
  have hblt : bc.Uint32 < 2 ^ 32 := Uint32_lt bc
  have hsucc : a.Uint32 ≠ bc.Uint32 →
      ∃ r, a.Next = .ok (some r) ∧ r.Uint32 = a.Uint32 + 1 ∧ r.Prefix = a.Prefix
        ∧ a.Contains (some r) = .ok true := by
    intro hne
    have hlt : a.Uint32 < bc.Uint32 := lt_of_le_of_ne h2 hne
    have hmod : (a.Uint32 + 1) % 2 ^ 32 = a.Uint32 + 1 := Nat.mod_eq_of_lt (by omega)
    obtain ⟨r, hr, hrp, hru⟩ := ToIPv4AddressWithPrefix_Uint32 (a.Uint32 + 1) a.prefixLen hp
      (by omega)
    refine ⟨r, ?_, hru, hrp, ?_⟩
    · rw [Next_eq a bc hb, if_neg (by omega), hmod, hr]
    · rw [Contains_eq a nw bc r hn hb, hru]
      have : nw.Uint32 ≤ a.Uint32 + 1 ∧ a.Uint32 + 1 ≤ bc.Uint32 := ⟨by omega, by omega⟩
      simp [this]
  refine ⟨bc, hb, ?_, hsucc, ?_, ?_⟩
  · constructor
    · intro hnone
      by_contra hne
      obtain ⟨r, hr, _⟩ := hsucc hne
      rw [hr] at hnone
      exact absurd hnone (by simp)
    · intro heq
      rw [Next_eq a bc hb, if_pos (by omega)]
  · apply Next_at_broadcast bc (by rw [hbp]; exact hp)
    rw [hbp, hbu, Nat.or_assoc, Nat.or_self]
  · intro hmax
    rw [Next_eq a bc hb, if_pos]
    have : (0xffffffff : Nat) = 2 ^ 32 - 1 := by norm_num
    omega

theorem Next_within_block_witness :
    ∃ bc, (IPv4Address.mk [127, 0, 0, 1] 24).Broadcast = .ok (some bc)
      ∧ ((IPv4Address.mk [127, 0, 0, 1] 24).Next = .ok none
          ↔ (IPv4Address.mk [127, 0, 0, 1] 24).Uint32 = bc.Uint32)
      ∧ ((IPv4Address.mk [127, 0, 0, 1] 24).Uint32 ≠ bc.Uint32 →
          ∃ r, (IPv4Address.mk [127, 0, 0, 1] 24).Next = .ok (some r)
            ∧ r.Uint32 = (IPv4Address.mk [127, 0, 0, 1] 24).Uint32 + 1
            ∧ r.Prefix = (IPv4Address.mk [127, 0, 0, 1] 24).Prefix
            ∧ (IPv4Address.mk [127, 0, 0, 1] 24).Contains (some r) = .ok true)
      ∧ bc.Next = .ok none
      ∧ ((IPv4Address.mk [127, 0, 0, 1] 24).Uint32 = 0xffffffff →
          (IPv4Address.mk [127, 0, 0, 1] 24).Next = .ok none) :=
  Next_within_block ⟨[127, 0, 0, 1], 24⟩ (by decide)

/-! ## Predecessor -/

theorem Prev_eq (a nw : IPv4Address) (hn : a.Network = .ok (some nw)) :
    a.Prev = if a.Uint32 ≤ nw.Uint32 then .ok none
      else .ok (ToIPv4AddressWithPrefix ((a.Uint32 + 2 ^ 32 - 1) % 2 ^ 32) a.prefixLen) := by
  simp only [IPv4Address.Prev, hn, ptrUint32]

theorem Prev_at_network (a : IPv4Address) (hp : 0 ≤ a.prefixLen ∧ a.prefixLen ≤ 32)
    (h : a.Uint32 = a.Uint32 &&& networkMask (32 - a.prefixLen).toNat) : a.Prev = .ok none := by
  obtain ⟨nw, hn, _, hnu⟩ := Network_spec a hp
  rw [Prev_eq a nw hn, if_pos (by rw [hnu]; exact le_of_eq h)]

/-- C11. For every address `a` with prefix `p` in `0..32`: `a.Prev()` is nil
exactly when `a.Uint32()` equals `a.Network().Uint32()`; otherwise it is the
address with integer `a.Uint32() - 1` and the same prefix, which `a` contains.
`a.Network().Prev()` is nil, and `Prev` of an address with integer 0 is nil (no
wrap-around to 255.255.255.255). -/
theorem Prev_within_block (a : IPv4Address) (hp : 0 ≤ a.prefixLen ∧ a.prefixLen ≤ 32) :
    ∃ nw, a.Network = .ok (some nw)
      ∧ (a.Prev = .ok none ↔ a.Uint32 = nw.Uint32)
      ∧ (a.Uint32 ≠ nw.Uint32 →
          ∃ r, a.Prev = .ok (some r) ∧ r.Uint32 + 1 = a.Uint32 ∧ r.Uint32 = a.Uint32 - 1
            ∧ r.Prefix = a.Prefix ∧ a.Contains (some r) = .ok true)
      ∧ nw.Prev = .ok none
      ∧ (a.Uint32 = 0 → a.Prev = .ok none) := by
  obtain ⟨nw, hn, hnp, hnu⟩ := Network_spec a hp
  obtain ⟨bc, hb, _, hbu⟩ := Broadcast_spec a hp
  have h1 : nw.Uint32 ≤ a.Uint32 := by rw [hnu]; exact network_le _ _
  have h2 : a.Uint32 ≤ bc.Uint32 := by rw [hbu]; exact le_broadcast _ _
  have hlt32 : a.Uint32 < 2 ^ 32 := Uint32_lt a
  have hpred : a.Uint32 ≠ nw.Uint32 →
      ∃ r, a.Prev = .ok (some r) ∧ r.Uint32 + 1 = a.Uint32 ∧ r.Uint32 = a.Uint32 - 1
        ∧ r.Prefix = a.Prefix ∧ a.Contains (some r) = .ok true := by
    intro hne
    have hlt : nw.Uint32 < a.Uint32 := lt_of_le_of_ne h1 (Ne.symm hne)
    have hmod : (a.Uint32 + 2 ^ 32 - 1) % 2 ^ 32 = a.Uint32 - 1 := by omega
    obtain ⟨r, hr, hrp, hru⟩ := ToIPv4AddressWithPrefix_Uint32 (a.Uint32 - 1) a.prefixLen hp
      (by omega)
    refine ⟨r, ?_, by omega, hru, hrp, ?_⟩
    · rw [Prev_eq a nw hn, if_neg (by omega), hmod, hr]
    · rw [Contains_eq a nw bc r hn hb, hru]
      have : nw.Uint32 ≤ a.Uint32 - 1 ∧ a.Uint32 - 1 ≤ bc.Uint32 := ⟨by omega, by omega⟩
      simp [this]
  refine ⟨nw, hn, ?_, hpred, ?_, ?_⟩
  · constructor
    · intro hnone
      by_contra hne
      obtain ⟨r, hr, _⟩ := hpred hne
      rw [hr] at hnone
      exact absurd hnone (by simp)
    · intro heq
      rw [Prev_eq a nw hn, if_pos (by omega)]
  · apply Prev_at_network nw (by rw [hnp]; exact hp)
    rw [hnp, hnu, Nat.and_assoc, Nat.and_self]
  · intro h0
    rw [Prev_eq a nw hn, if_pos (by omega)]

theorem Prev_within_block_witness :
    ∃ nw, (IPv4Address.mk [192, 168, 0, 1] 24).Network = .ok (some nw)
      ∧ ((IPv4Address.mk [192, 168, 0, 1] 24).Prev = .ok none
          ↔ (IPv4Address.mk [192, 168, 0, 1] 24).Uint32 = nw.Uint32)
      ∧ ((IPv4Address.mk [192, 168, 0, 1] 24).Uint32 ≠ nw.Uint32 →
          ∃ r, (IPv4Address.mk [192, 168, 0, 1] 24).Prev = .ok (some r)
            ∧ r.Uint32 + 1 = (IPv4Address.mk [192, 168, 0, 1] 24).Uint32
            ∧ r.Uint32 = (IPv4Address.mk [192, 168, 0, 1] 24).Uint32 - 1
            ∧ r.Prefix = (IPv4Address.mk [192, 168, 0, 1] 24).Prefix
            ∧ (IPv4Address.mk [192, 168, 0, 1] 24).Contains (some r) = .ok true)
      ∧ nw.Prev = .ok none
      ∧ ((IPv4Address.mk [192, 168, 0, 1] 24).Uint32 = 0 →
          (IPv4Address.mk [192, 168, 0, 1] 24).Prev = .ok none) :=
  Prev_within_block ⟨[192, 168, 0, 1], 24⟩ (by decide)

/-! ## Size of a block -/

theorem network_eq_mul (u k : Nat) (hu : u < 2 ^ 32) :
    u &&& networkMask k = 2 ^ k * (u >>> k) := by
  apply Nat.eq_of_testBit_eq
  intro i
  rw [Nat.testBit_and, testBit_networkMask, Nat.testBit_mul_pow_two, Nat.testBit_shiftRight]
  by_cases hk : k ≤ i
  · rw [Nat.add_sub_cancel' hk]
    by_cases h32 : i < 32
    · simp [hk, h32]
    · have : u.testBit i = false :=
        Nat.testBit_lt_two_pow (lt_of_lt_of_le hu (Nat.pow_le_pow_right (by decide) (by omega)))
      simp [this]
  · simp [hk]

theorem network_add_size (u k : Nat) (hu : u < 2 ^ 32) :
    (u &&& networkMask k) + (2 ^ k - 1) = u ||| (2 ^ k - 1) := by
  have hlt : 2 ^ k - 1 < 2 ^ k := by
    have := Nat.two_pow_pos k
    omega
  rw [network_eq_mul u k hu, Nat.mul_add_lt_is_or hlt]
  apply Nat.eq_of_testBit_eq
  intro i
  rw [Nat.testBit_or, Nat.testBit_or, Nat.testBit_mul_pow_two, Nat.testBit_shiftRight,
    Nat.testBit_two_pow_sub_one]
  by_cases hk : k ≤ i
  · rw [Nat.add_sub_cancel' hk]; simp [hk]
  · have : i < k := by omega
    simp [this]

theorem Size_eq (a : IPv4Address) (hp : 0 ≤ a.prefixLen ∧ a.prefixLen ≤ 32) :
    a.Size = .ok ((2 : Int) ^ (32 - a.prefixLen).toNat) := by
  unfold IPv4Address.Size
  rw [wrapInt_small (32 - a.prefixLen) (by norm_num; omega) (by norm_num; omega)]
  unfold shlInt
  rw [if_neg (by omega), Int.one_mul]
  have hk : (32 - a.prefixLen).toNat ≤ 32 := by omega
  have hpow : (2 : Int) ^ (32 - a.prefixLen).toNat ≤ 2 ^ 32 :=
    pow_le_pow_right₀ (by norm_num) hk
  have hpos : (0 : Int) < 2 ^ (32 - a.prefixLen).toNat := by positivity
  rw [wrapInt_small _ (by norm_num at hpow ⊢; omega) (by norm_num at hpow ⊢; omega)]

/-- C12. For every address with prefix `p` in `0..32`, `Size()` is exactly
`2^(32 - p)` on the 64-bit `int`: 1 at `p = 32`, 256 at `p = 24`, 1024 at
`p = 22`, and `2^32 = 4294967296` at `p = 0`. -/
theorem Size_is_power_of_two (a : IPv4Address) (hp : 0 ≤ a.prefixLen ∧ a.prefixLen ≤ 32) :
    a.Size = .ok ((2 : Int) ^ (32 - a.prefixLen).toNat)
      ∧ (a.prefixLen = 32 → a.Size = .ok 1)
      ∧ (a.prefixLen = 24 → a.Size = .ok 256)
      ∧ (a.prefixLen = 22 → a.Size = .ok 1024)
      ∧ (a.prefixLen = 0 → a.Size = .ok 4294967296) := by
  have h := Size_eq a hp
  refine ⟨h, ?_, ?_, ?_, ?_⟩ <;> intro hpv <;> rw [h, hpv] <;> rfl

theorem Size_is_power_of_two_witness :
    (IPv4Address.mk [] 0).Size = .ok ((2 : Int) ^ (32 - (IPv4Address.mk [] 0).prefixLen).toNat)
      ∧ ((IPv4Address.mk [] 0).prefixLen = 32 → (IPv4Address.mk [] 0).Size = .ok 1)
      ∧ ((IPv4Address.mk [] 0).prefixLen = 24 → (IPv4Address.mk [] 0).Size = .ok 256)
      ∧ ((IPv4Address.mk [] 0).prefixLen = 22 → (IPv4Address.mk [] 0).Size = .ok 1024)
      ∧ ((IPv4Address.mk [] 0).prefixLen = 0 → (IPv4Address.mk [] 0).Size = .ok 4294967296) :=
  Size_is_power_of_two ⟨[], 0⟩ (by decide)

/-- C13. Size invariant: for every address `a` with prefix in `0..32`
(prefix 0 included), `a.Network().Uint32() + a.Size() - 1` equals
`a.Broadcast().Uint32()`, the arithmetic taken over the integers. -/
theorem Size_invariant (a : IPv4Address) (hp : 0 ≤ a.prefixLen ∧ a.prefixLen ≤ 32) :
    ∃ nw bc size, a.Network = .ok (some nw) ∧ a.Broadcast = .ok (some bc)
      ∧ a.Size = .ok size ∧ (nw.Uint32 : Int) + size - 1 = (bc.Uint32 : Int) := by
  obtain ⟨nw, hn, _, hnu⟩ := Network_spec a hp
  obtain ⟨bc, hb, _, hbu⟩ := Broadcast_spec a hp
  refine ⟨nw, bc, _, hn, hb, Size_eq a hp, ?_⟩
  have h := network_add_size a.Uint32 (32 - a.prefixLen).toNat (Uint32_lt a)
  rw [← hnu, ← hbu] at h
  have hpos := Nat.two_pow_pos (32 - a.prefixLen).toNat
  have hc : ((2 ^ (32 - a.prefixLen).toNat : Nat) : Int) = (2 : Int) ^ (32 - a.prefixLen).toNat := by
    push_cast; rfl
  rw [← hc]
  omega

theorem Size_invariant_witness :
    ∃ nw bc size, (IPv4Address.mk [7, 91, 205, 21] 0).Network = .ok (some nw)
      ∧ (IPv4Address.mk [7, 91, 205, 21] 0).Broadcast = .ok (some bc)
      ∧ (IPv4Address.mk [7, 91, 205, 21] 0).Size = .ok size
      ∧ (nw.Uint32 : Int) + size - 1 = (bc.Uint32 : Int) :=
  Size_invariant ⟨[7, 91, 205, 21], 0⟩ (by decide)

/-- C14. Idempotence: for every address `a` with prefix in `0..32`,
`a.Network().Network()` is `a.Network()` and `a.Broadcast().Broadcast()` is
`a.Broadcast()`: the same address, hence the same integer form and the same
prefix, and `Equals` holds between them. -/
theorem Network_Broadcast_idempotent (a : IPv4Address)
    (hp : 0 ≤ a.prefixLen ∧ a.prefixLen ≤ 32) :
    (∃ nw, a.Network = .ok (some nw) ∧ nw.Network = .ok (some nw)
        ∧ nw.Equals (some nw) = .ok true)
    ∧ (∃ bc, a.Broadcast = .ok (some bc) ∧ bc.Broadcast = .ok (some bc)
        ∧ bc.Equals (some bc) = .ok true) := by
  constructor
  · obtain ⟨nw, hn, hnp, hnu⟩ := Network_spec a hp
    refine ⟨nw, hn, ?_, by simp [IPv4Address.Equals, ptrUint32]⟩
    have hn2 := Network_eq nw (by rw [hnp]; exact hp)
    rw [hn2, hnp, hnu, Nat.and_assoc, Nat.and_self, ← Network_eq a hp, hn]
  · obtain ⟨bc, hb, hbp, hbu⟩ := Broadcast_spec a hp
    refine ⟨bc, hb, ?_, by simp [IPv4Address.Equals, ptrUint32]⟩
    have hb2 := Broadcast_eq bc (by rw [hbp]; exact hp)
    rw [hb2, hbp, hbu, Nat.or_assoc, Nat.or_self, ← Broadcast_eq a hp, hb]

theorem Network_Broadcast_idempotent_witness :
    (∃ nw, (IPv4Address.mk [7, 91, 205, 21] 15).Network = .ok (some nw)
        ∧ nw.Network = .ok (some nw) ∧ nw.Equals (some nw) = .ok true)
    ∧ (∃ bc, (IPv4Address.mk [7, 91, 205, 21] 15).Broadcast = .ok (some bc)
        ∧ bc.Broadcast = .ok (some bc) ∧ bc.Equals (some bc) = .ok true) :=
  Network_Broadcast_idempotent ⟨[7, 91, 205, 21], 15⟩ (by decide)

/-! ## Netmask -/

theorem Fin_ofNat_byte (x : Nat) (h : x < 256) : ((Fin.ofNat x : Byte)).val = x := by
  simp [Fin.ofNat, Nat.mod_eq_of_lt h]

theorem String_of_ToIPv4AddressWithPrefix (n : Nat) (p : Int) (hp : 0 ≤ p ∧ p ≤ 32) :
    ∃ r, ToIPv4AddressWithPrefix n p = some r
      ∧ r.String = .ok (SprintfDotted ((n >>> 24) &&& 0xff) ((n >>> 16) &&& 0xff)
          ((n >>> 8) &&& 0xff) (n &&& 0xff)) := by
  refine ⟨_, ToIPv4AddressWithPrefix_eq n p hp, ?_⟩
  have h3 : n &&& 0xff < 256 := by simpa using byte_and_lt n 0
  simp only [IPv4Address.String, Fin_ofNat_byte _ (byte_and_lt n 24),
    Fin_ofNat_byte _ (byte_and_lt n 16), Fin_ofNat_byte _ (byte_and_lt n 8),
    Fin_ofNat_byte _ h3]

theorem Netmask_eq (a : IPv4Address) (hp : 0 ≤ a.prefixLen ∧ a.prefixLen ≤ 32) :
    a.Netmask = .ok (SprintfDotted
      ((networkMask (32 - a.prefixLen).toNat >>> 24) &&& 0xff)
      ((networkMask (32 - a.prefixLen).toNat >>> 16) &&& 0xff)
      ((networkMask (32 - a.prefixLen).toNat >>> 8) &&& 0xff)
      (networkMask (32 - a.prefixLen).toNat &&& 0xff)) := by
  obtain ⟨r, hr, hs⟩ := String_of_ToIPv4AddressWithPrefix
    (networkMask (32 - a.prefixLen).toNat) 32 (by omega)
  simp only [IPv4Address.Netmask, shl32_sub _ _ hp, ToIPv4Address]
  rw [← networkMask, hr]
  exact hs

/-- C15. For every address with prefix `p` in `0..32`, `Netmask()` is the
dotted-decimal rendering (`String()` of the address with that integer form) of
the 32-bit value `0xFFFFFFFF << (32 - p)`, whose bits `32 - p .. 31` are 1 and
whose low `32 - p` bits are 0: `255.255.255.0` at `p = 24`, `255.192.0.0` at
`p = 10`, `0.0.0.0` at `p = 0`, `255.255.255.255` at `p = 32`; it depends only
on the prefix. -/
theorem Netmask_renders_mask (a : IPv4Address) (hp : 0 ≤ a.prefixLen ∧ a.prefixLen ≤ 32) :
    (∃ r, ToIPv4Address ((0xffffffff <<< (32 - a.prefixLen).toNat) % 2 ^ 32) = some r
        ∧ r.Uint32 = (0xffffffff <<< (32 - a.prefixLen).toNat) % 2 ^ 32
        ∧ a.Netmask = r.String
        ∧ ∃ s, r.String = .ok s)
    ∧ (∀ i, ((0xffffffff <<< (32 - a.prefixLen).toNat) % 2 ^ 32).testBit i
        = (decide (i < 32) && decide ((32 - a.prefixLen).toNat ≤ i)))
    ∧ (a.prefixLen = 24 → a.Netmask = .ok "255.255.255.0".toList)
    ∧ (a.prefixLen = 10 → a.Netmask = .ok "255.192.0.0".toList)
    ∧ (a.prefixLen = 0 → a.Netmask = .ok "0.0.0.0".toList)
    ∧ (a.prefixLen = 32 → a.Netmask = .ok "255.255.255.255".toList)
    ∧ (∀ b : IPv4Address, b.prefixLen = a.prefixLen → b.Netmask = a.Netmask) := by
  have hne := Netmask_eq a hp
  refine ⟨?_, fun i => testBit_networkMask _ i, ?_, ?_, ?_, ?_, ?_⟩
  · obtain ⟨r, hr, hs⟩ := String_of_ToIPv4AddressWithPrefix
      (networkMask (32 - a.prefixLen).toNat) 32 (by omega)
    obtain ⟨r2, hr2, _, hu⟩ := ToIPv4AddressWithPrefix_Uint32
      (networkMask (32 - a.prefixLen).toNat) 32 (by omega)
      (Nat.mod_lt _ (by norm_num))
    rw [hr] at hr2
    have hrr : r = r2 := Option.some.inj hr2
    subst hrr
    exact ⟨r, hr, hu, by rw [hne, hs], _, hs⟩
  · intro hpv; rw [hne, hpv]; rfl
  · intro hpv; rw [hne, hpv]; rfl
  · intro hpv; rw [hne, hpv]; rfl
  · intro hpv; rw [hne, hpv]; rfl
  · intro b hb
    unfold IPv4Address.Netmask
    rw [hb]

theorem Netmask_renders_mask_witness :
    (∃ r, ToIPv4Address
          ((0xffffffff <<< (32 - (IPv4Address.mk [] 10).prefixLen).toNat) % 2 ^ 32) = some r
        ∧ r.Uint32 = (0xffffffff <<< (32 - (IPv4Address.mk [] 10).prefixLen).toNat) % 2 ^ 32
        ∧ (IPv4Address.mk [] 10).Netmask = r.String
        ∧ ∃ s, r.String = .ok s)
    ∧ (∀ i, ((0xffffffff <<< (32 - (IPv4Address.mk [] 10).prefixLen).toNat) % 2 ^ 32).testBit i
        = (decide (i < 32) && decide ((32 - (IPv4Address.mk [] 10).prefixLen).toNat ≤ i)))
    ∧ ((IPv4Address.mk [] 10).prefixLen = 24 →
        (IPv4Address.mk [] 10).Netmask = .ok "255.255.255.0".toList)
    ∧ ((IPv4Address.mk [] 10).prefixLen = 10 →
        (IPv4Address.mk [] 10).Netmask = .ok "255.192.0.0".toList)
    ∧ ((IPv4Address.mk [] 10).prefixLen = 0 →
        (IPv4Address.mk [] 10).Netmask = .ok "0.0.0.0".toList)
    ∧ ((IPv4Address.mk [] 10).prefixLen = 32 →
        (IPv4Address.mk [] 10).Netmask = .ok "255.255.255.255".toList)
    ∧ (∀ b : IPv4Address, b.prefixLen = (IPv4Address.mk [] 10).prefixLen →
        b.Netmask = (IPv4Address.mk [] 10).Netmask) :=
  Netmask_renders_mask ⟨[], 10⟩ (by decide)

/-! ## Classification -/

theorem IsA_eq (a : IPv4Address) : a.IsA = .ok (decide (inClassA a.Uint32)) :=
  Contains_eq ClassA ⟨[10, 0, 0, 0], 8⟩ ⟨[10, 255, 255, 255], 8⟩ a (by decide) (by decide)

theorem IsB_eq (a : IPv4Address) : a.IsB = .ok (decide (inClassB a.Uint32)) :=
  Contains_eq ClassB ⟨[172, 16, 0, 0], 12⟩ ⟨[172, 31, 255, 255], 12⟩ a (by decide) (by decide)

theorem IsC_eq (a : IPv4Address) : a.IsC = .ok (decide (inClassC a.Uint32)) :=
  Contains_eq ClassC ⟨[192, 168, 0, 0], 16⟩ ⟨[192, 168, 255, 255], 16⟩ a (by decide)
    (by decide)

theorem IsPrivate_eq (a : IPv4Address) :
    a.IsPrivate
      = .ok (decide (inClassA a.Uint32 ∨ inClassB a.Uint32 ∨ inClassC a.Uint32)) := by
  have hA : ClassA.Contains (some a) = .ok (decide (inClassA a.Uint32)) := IsA_eq a
  have hB : ClassB.Contains (some a) = .ok (decide (inClassB a.Uint32)) := IsB_eq a
  have hC : ClassC.Contains (some a) = .ok (decide (inClassC a.Uint32)) := IsC_eq a
  simp only [IPv4Address.IsPrivate, isPrivateLoop, hA, hB, hC]
  by_cases h1 : inClassA a.Uint32 <;> by_cases h2 : inClassB a.Uint32 <;>
    by_cases h3 : inClassC a.Uint32 <;> simp [h1, h2, h3]

/-- C16. For every address `a`, `a.IsPrivate()` is true iff `a.IsA()`,
`a.IsB()` or `a.IsC()` is true, which holds iff `a.Uint32()` lies in
10.0.0.0..10.255.255.255, 172.16.0.0..172.31.255.255 or
192.168.0.0..192.168.255.255; the result depends on the integer form only, not
on the prefix of `a` (10.20.30.40/10 is private, 8.8.8.8/32 and 127.0.0.1/32
are not). -/
theorem IsPrivate_iff_class (a : IPv4Address) :
    (∃ b, a.IsPrivate = .ok b)
    ∧ (a.IsPrivate = .ok true
        ↔ a.IsA = .ok true ∨ a.IsB = .ok true ∨ a.IsC = .ok true)
    ∧ (a.IsPrivate = .ok true
        ↔ (dottedNum 10 0 0 0 ≤ a.Uint32 ∧ a.Uint32 ≤ dottedNum 10 255 255 255)
          ∨ (dottedNum 172 16 0 0 ≤ a.Uint32 ∧ a.Uint32 ≤ dottedNum 172 31 255 255)
          ∨ (dottedNum 192 168 0 0 ≤ a.Uint32 ∧ a.Uint32 ≤ dottedNum 192 168 255 255))
    ∧ (∀ b : IPv4Address, b.Uint32 = a.Uint32 → b.IsPrivate = a.IsPrivate)
    ∧ (∃ r, NewIPv4Address "10.20.30.40/10".toList = .ok r ∧ r.IsPrivate = .ok true)
    ∧ (∃ r, NewIPv4Address "8.8.8.8/32".toList = .ok r ∧ r.IsPrivate = .ok false)
    ∧ (∃ r, NewIPv4Address "127.0.0.1/32".toList = .ok r ∧ r.IsPrivate = .ok false) := by
  refine ⟨⟨_, IsPrivate_eq a⟩, ?_, ?_, ?_, ⟨⟨[10, 20, 30, 40], 10⟩, by decide, by decide⟩,
    ⟨⟨[8, 8, 8, 8], 32⟩, by decide, by decide⟩, ⟨⟨[127, 0, 0, 1], 32⟩, by decide, by decide⟩⟩
  · rw [IsPrivate_eq, IsA_eq, IsB_eq, IsC_eq]
    simp
  · rw [IsPrivate_eq]
    simp [inClassA, inClassB, inClassC]
  · intro b hb
    rw [IsPrivate_eq, IsPrivate_eq, hb]

theorem notBoth_symm (a : IPv4Address) : Symmetric (notBoth a) := by
  intro e1 e2 h hc
  exact h ⟨hc.2, hc.1⟩

theorem classLoop_perm (a : IPv4Address) (l1 l2 : List (List Char × (IPv4Address → Go Bool)))
    (h : l1.Perm l2) (hpair : l1.Pairwise (notBoth a))
    (hok : ∀ e ∈ l1, ∃ b, e.2 a = .ok b) : classLoop a l1 = classLoop a l2 := by
  induction h with
  | nil => rfl
  | cons x _ ih =>
    obtain ⟨name, fn⟩ := x
    have := ih (List.Pairwise.of_cons hpair) (fun e he => hok e (by simp [he]))
    simp only [classLoop, this]
  | swap x y l =>
    obtain ⟨nx, fx⟩ := x
    obtain ⟨ny, fy⟩ := y
    obtain ⟨bx, hx⟩ := hok (nx, fx) (by simp)
    obtain ⟨bY, hy⟩ := hok (ny, fy) (by simp)
    simp only at hx hy
    have hnb : notBoth a (ny, fy) (nx, fx) :=
      List.rel_of_pairwise_cons hpair (List.mem_cons_self _ _)
    unfold notBoth at hnb
    simp only at hnb
    simp only [classLoop, hx, hy]
    cases bx <;> cases bY <;> simp_all
  | trans h1 _ ih1 ih2 =>
    rw [ih1 hpair hok]
    exact ih2 ((h1.pairwise_iff (fun {x y} h => notBoth_symm a h)).mp hpair)
      (fun e he => hok e (h1.mem_iff.mpr he))
theorem class_ranges_disjoint (u : Nat) :
    ¬ (inClassA u ∧ inClassB u) ∧ ¬ (inClassA u ∧ inClassC u)
      ∧ ¬ (inClassB u ∧ inClassC u) := by
  simp only [inClassA, inClassB, inClassC, dottedNum]
  omega

theorem notBoth_of_decide (a : IPv4Address) (n1 n2 : List Char)
    (f g : IPv4Address → Go Bool) (P Q : Prop) [Decidable P] [Decidable Q]
    (hf : f a = .ok (decide P)) (hg : g a = .ok (decide Q)) (h : ¬ (P ∧ Q)) :
    notBoth a (n1, f) (n2, g) := by
  unfold notBoth
  simp only [hf, hg, Except.ok.injEq, decide_eq_true_eq]
  exact h

theorem classEntries_pairwise (a : IPv4Address) : classEntries.Pairwise (notBoth a) := by
  obtain ⟨hab, hac, hbc⟩ := class_ranges_disjoint a.Uint32
  unfold classEntries
  refine List.Pairwise.cons ?_ (List.Pairwise.cons ?_ (List.Pairwise.cons ?_ List.Pairwise.nil))
  · intro e he
    simp only [List.mem_cons, List.mem_singleton, List.not_mem_nil, or_false] at he
    rcases he with rfl | rfl
    · exact notBoth_of_decide a _ _ _ _ _ _ (IsA_eq a) (IsB_eq a) hab
    · exact notBoth_of_decide a _ _ _ _ _ _ (IsA_eq a) (IsC_eq a) hac
  · intro e he
    simp only [List.mem_singleton] at he
    subst he
    exact notBoth_of_decide a _ _ _ _ _ _ (IsB_eq a) (IsC_eq a) hbc
  · intro e he
    simp at he

theorem classEntries_ok (a : IPv4Address) : ∀ e ∈ classEntries, ∃ b, e.2 a = .ok b := by
  intro e he
  simp only [classEntries, List.mem_cons, List.mem_singleton, List.not_mem_nil, or_false] at he
  rcases he with rfl | rfl | rfl
  · exact ⟨_, IsA_eq a⟩
  · exact ⟨_, IsB_eq a⟩
  · exact ⟨_, IsC_eq a⟩

theorem Class_classEntries (a : IPv4Address) :
    a.Class classEntries = .ok (if inClassA a.Uint32 then ['A']
      else if inClassB a.Uint32 then ['B'] else if inClassC a.Uint32 then ['C'] else []) := by
  simp only [IPv4Address.Class, classEntries, classLoop, IsA_eq, IsB_eq, IsC_eq]
  by_cases h1 : inClassA a.Uint32 <;> by_cases h2 : inClassB a.Uint32 <;>
    by_cases h3 : inClassC a.Uint32 <;> simp [h1, h2, h3]

/-- C17. `Class()` is deterministic: for every address `a`, at most one of
`a.IsA()`, `a.IsB()`, `a.IsC()` is true, so for every order `order` in which
the iteration visits the three entries of the name-to-predicate map, `Class()`
returns `"A"` iff `IsA()`, `"B"` iff `IsB()`, `"C"` iff `IsC()`, and the empty
string iff none holds. -/
theorem Class_deterministic (a : IPv4Address)
    (order : List (List Char × (IPv4Address → Go Bool))) (h : order.Perm classEntries) :
    (¬ (a.IsA = .ok true ∧ a.IsB = .ok true) ∧ ¬ (a.IsA = .ok true ∧ a.IsC = .ok true)
        ∧ ¬ (a.IsB = .ok true ∧ a.IsC = .ok true))
    ∧ a.Class order = a.Class classEntries
    ∧ (a.Class order = .ok "A".toList ↔ a.IsA = .ok true)
    ∧ (a.Class order = .ok "B".toList ↔ a.IsB = .ok true)
    ∧ (a.Class order = .ok "C".toList ↔ a.IsC = .ok true)
    ∧ (a.Class order = .ok "".toList
        ↔ a.IsA = .ok false ∧ a.IsB = .ok false ∧ a.IsC = .ok false) := by
  have hperm : a.Class order = a.Class classEntries :=
    (classLoop_perm a classEntries order h.symm (classEntries_pairwise a)
      (classEntries_ok a)).symm
  obtain ⟨hab, hac, hbc⟩ := class_ranges_disjoint a.Uint32
  rw [hperm, Class_classEntries, IsA_eq, IsB_eq, IsC_eq]
  have e1 : "A".toList = ['A'] := rfl
  have e2 : "B".toList = ['B'] := rfl
  have e3 : "C".toList = ['C'] := rfl
  have e4 : "".toList = [] := rfl
  rw [e1, e2, e3, e4]
  by_cases h1 : inClassA a.Uint32 <;> by_cases h2 : inClassB a.Uint32 <;>
    by_cases h3 : inClassC a.Uint32 <;> simp_all

theorem Class_deterministic_witness :
    (¬ ((IPv4Address.mk [172, 20, 30, 40] 12).IsA = .ok true
          ∧ (IPv4Address.mk [172, 20, 30, 40] 12).IsB = .ok true)
        ∧ ¬ ((IPv4Address.mk [172, 20, 30, 40] 12).IsA = .ok true
          ∧ (IPv4Address.mk [172, 20, 30, 40] 12).IsC = .ok true)
        ∧ ¬ ((IPv4Address.mk [172, 20, 30, 40] 12).IsB = .ok true
          ∧ (IPv4Address.mk [172, 20, 30, 40] 12).IsC = .ok true))
    ∧ (IPv4Address.mk [172, 20, 30, 40] 12).Class classEntries.reverse
        = (IPv4Address.mk [172, 20, 30, 40] 12).Class classEntries
    ∧ ((IPv4Address.mk [172, 20, 30, 40] 12).Class classEntries.reverse = .ok "A".toList
        ↔ (IPv4Address.mk [172, 20, 30, 40] 12).IsA = .ok true)
    ∧ ((IPv4Address.mk [172, 20, 30, 40] 12).Class classEntries.reverse = .ok "B".toList
        ↔ (IPv4Address.mk [172, 20, 30, 40] 12).IsB = .ok true)
    ∧ ((IPv4Address.mk [172, 20, 30, 40] 12).Class classEntries.reverse = .ok "C".toList
        ↔ (IPv4Address.mk [172, 20, 30, 40] 12).IsC = .ok true)
    ∧ ((IPv4Address.mk [172, 20, 30, 40] 12).Class classEntries.reverse = .ok "".toList
        ↔ (IPv4Address.mk [172, 20, 30, 40] 12).IsA = .ok false
          ∧ (IPv4Address.mk [172, 20, 30, 40] 12).IsB = .ok false
          ∧ (IPv4Address.mk [172, 20, 30, 40] 12).IsC = .ok false) :=
  Class_deterministic ⟨[172, 20, 30, 40], 12⟩ classEntries.reverse
    (List.reverse_perm classEntries)

/-! ## Sampling, prefix validation, reverse name -/

/-- C18. For every address `a` with prefix `p` in `0..31` (so `Size() > 1`) and
every value `r` that `rand.Intn(a.Size() - 1)` can return, `0 <= r < Size() - 1`:
`a.Sample()` is the non-nil address with integer `a.Network().Uint32() + r` and
prefix `p`; it is at least the network address, strictly below the broadcast
address, and `a.Contains` it. -/
theorem Sample_in_block (a : IPv4Address) (hp : 0 ≤ a.prefixLen ∧ a.prefixLen ≤ 31) :
    ∃ nw bc size, a.Network = .ok (some nw) ∧ a.Broadcast = .ok (some bc)
      ∧ a.Size = .ok size ∧ 1 < size
      ∧ ∀ r : Nat, (r : Int) < size - 1 →
          ∃ res, a.Sample r = .ok (some res) ∧ res.Uint32 = nw.Uint32 + r
            ∧ res.Prefix = a.Prefix ∧ nw.Uint32 ≤ res.Uint32 ∧ res.Uint32 < bc.Uint32
            ∧ a.Contains (some res) = .ok true := by
  have hp32 : 0 ≤ a.prefixLen ∧ a.prefixLen ≤ 32 := ⟨hp.1, by omega⟩
  obtain ⟨nw, hn, _, hnu⟩ := Network_spec a hp32
  obtain ⟨bc, hb, _, hbu⟩ := Broadcast_spec a hp32
  have hsize := Size_eq a hp32
  obtain ⟨k, hk⟩ : ∃ k, (32 - a.prefixLen).toNat = k := ⟨_, rfl⟩
  have hk1 : 1 ≤ k := by omega
  have hk32 : k ≤ 32 := by omega
  have hadd := network_add_size a.Uint32 k (Uint32_lt a)
  rw [hk] at hnu hbu hsize
  rw [← hnu, ← hbu] at hadd
  have hblt : bc.Uint32 < 2 ^ 32 := Uint32_lt bc
  have hpow2 : 2 ≤ 2 ^ k := by
    calc 2 = 2 ^ 1 := by norm_num
      _ ≤ 2 ^ k := Nat.pow_le_pow_right (by decide) hk1
  have hpow32 : 2 ^ k ≤ 2 ^ 32 := Nat.pow_le_pow_right (by decide) hk32
  have hc : ((2 ^ k : Nat) : Int) = (2 : Int) ^ k := by push_cast; rfl
  refine ⟨nw, bc, _, hn, hb, hsize, by rw [← hc]; omega, ?_⟩
  intro r hr
  rw [← hc] at hr
  have hrlt : r < 2 ^ k - 1 := by omega
  have hr32 : r % 2 ^ 32 = r := Nat.mod_eq_of_lt (by omega)
  have hsum : (nw.Uint32 + r) % 2 ^ 32 = nw.Uint32 + r := Nat.mod_eq_of_lt (by omega)
  obtain ⟨res, hres, hrp, hru⟩ := ToIPv4AddressWithPrefix_Uint32 (nw.Uint32 + r) a.prefixLen
    hp32 (by omega)
  have hw : ¬ wrapInt ((2 : Int) ^ k - 1) ≤ 0 := by
    rw [wrapInt_small _ (by rw [← hc]; norm_num; omega) (by rw [← hc]; norm_num; omega),
      ← hc]
    omega
  refine ⟨res, ?_, hru, hrp, by omega, by omega, ?_⟩
  · simp only [IPv4Address.Sample, hsize, hw, if_false, hn, ptrUint32, hr32, hsum, hres]
  · rw [Contains_eq a nw bc res hn hb, hru]
    have : nw.Uint32 ≤ nw.Uint32 + r ∧ nw.Uint32 + r ≤ bc.Uint32 := ⟨by omega, by omega⟩
    simp [this]

theorem Sample_in_block_witness :
    ∃ nw bc size, (IPv4Address.mk [192, 168, 0, 1] 24).Network = .ok (some nw)
      ∧ (IPv4Address.mk [192, 168, 0, 1] 24).Broadcast = .ok (some bc)
      ∧ (IPv4Address.mk [192, 168, 0, 1] 24).Size = .ok size ∧ 1 < size
      ∧ ∀ r : Nat, (r : Int) < size - 1 →
          ∃ res, (IPv4Address.mk [192, 168, 0, 1] 24).Sample r = .ok (some res)
            ∧ res.Uint32 = nw.Uint32 + r
            ∧ res.Prefix = (IPv4Address.mk [192, 168, 0, 1] 24).Prefix
            ∧ nw.Uint32 ≤ res.Uint32 ∧ res.Uint32 < bc.Uint32
            ∧ (IPv4Address.mk [192, 168, 0, 1] 24).Contains (some res) = .ok true :=
  Sample_in_block ⟨[192, 168, 0, 1], 24⟩ (by decide)

/-- C19. For every 32-bit unsigned `n` and every integer `p`,
`ToIPv4AddressWithPrefix n p` returns no address (nil) if and only if `p < 0`
or `p > 32`; `validatePrefix p` is true exactly for `0 <= p <= 32`, so `-1` and
`33` are rejected, `0` and `32` accepted. -/
theorem ToIPv4AddressWithPrefix_nil_iff (n : Nat) (p : Int) :
    (ToIPv4AddressWithPrefix n p = none ↔ p < 0 ∨ p > 32)
    ∧ (validatePrefix p = true ↔ 0 ≤ p ∧ p ≤ 32)
    ∧ validatePrefix (-1) = false ∧ validatePrefix 33 = false
    ∧ validatePrefix 0 = true ∧ validatePrefix 32 = true := by
  refine ⟨?_, ?_, rfl, rfl, rfl, rfl⟩
  · constructor
    · intro h
      by_contra hc
      have hp : 0 ≤ p ∧ p ≤ 32 := by omega
      rw [ToIPv4AddressWithPrefix_eq n p hp] at h
      exact absurd h (by simp)
    · intro h
      exact ToIPv4AddressWithPrefix_none n p (by omega)
  · simp [validatePrefix]

theorem Bytes_four (o0 o1 o2 o3 : Byte) (p : Int) :
    (IPv4Address.mk [o0, o1, o2, o3] p).Bytes = [o0, o1, o2, o3] := by
  have h0 := o0.isLt
  have h1 := o1.isLt
  have h2 := o2.isLt
  have h3 := o3.isLt
  have h8 : ∀ x, x &&& 0xff = x % 256 := by
    intro x
    have := Nat.and_pow_two_sub_one_eq_mod x 8
    norm_num at this
    exact this
  simp only [IPv4Address.Bytes, Uint32_four, h8, Nat.shiftRight_eq_div_pow]
  have e0 : (o0.val * 2 ^ 24 + o1.val * 2 ^ 16 + o2.val * 2 ^ 8 + o3.val) / 2 ^ 24 % 256
      = o0.val := by omega
  have e1 : (o0.val * 2 ^ 24 + o1.val * 2 ^ 16 + o2.val * 2 ^ 8 + o3.val) / 2 ^ 16 % 256
      = o1.val := by omega
  have e2 : (o0.val * 2 ^ 24 + o1.val * 2 ^ 16 + o2.val * 2 ^ 8 + o3.val) / 2 ^ 8 % 256
      = o2.val := by omega
  have e3 : (o0.val * 2 ^ 24 + o1.val * 2 ^ 16 + o2.val * 2 ^ 8 + o3.val) % 256
      = o3.val := by omega
  rw [e0, e1, e2, e3]
  simp only [Fin_ofNat_val]

theorem Bytes_sixteen (o0 o1 o2 o3 : Byte) (p : Int) :
    (IPv4Address.mk (IPv4 o0 o1 o2 o3) p).Bytes = [o0, o1, o2, o3] := by
  have h := Bytes_four o0 o1 o2 o3 p
  simp only [IPv4Address.Bytes, Uint32_four, Uint32_sixteen] at h ⊢
  exact h

/-- C20. For every address with octets `o0 o1 o2 o3` (4-byte or 16-byte form),
`ARPA()` is the text `o3.o2.o1.o0.in-addr.arpa`: the four octets in reversed
order, each as its canonical decimal numeral (no leading zeros), joined by
`'.'` and followed by `.in-addr.arpa`; 127.0.0.1 gives
`1.0.0.127.in-addr.arpa`. -/
theorem ARPA_reverses_octets (o0 o1 o2 o3 : Byte) (p : Int) :
    (∃ s3 s2 s1 s0, IsCanonicalDecimal s3 o3.val ∧ IsCanonicalDecimal s2 o2.val
        ∧ IsCanonicalDecimal s1 o1.val ∧ IsCanonicalDecimal s0 o0.val
        ∧ (IPv4Address.mk [o0, o1, o2, o3] p).ARPA
            = .ok (dotted s3 s2 s1 s0 ++ ".in-addr.arpa".toList)
        ∧ (IPv4Address.mk (IPv4 o0 o1 o2 o3) p).ARPA
            = .ok (dotted s3 s2 s1 s0 ++ ".in-addr.arpa".toList))
    ∧ (IPv4Address.mk [127, 0, 0, 1] p).ARPA = .ok "1.0.0.127.in-addr.arpa".toList := by
  refine ⟨⟨fmtDecimal o3.val, fmtDecimal o2.val, fmtDecimal o1.val, fmtDecimal o0.val,
    fmtDecimal_canonical _, fmtDecimal_canonical _, fmtDecimal_canonical _,
    fmtDecimal_canonical _, ?_, ?_⟩, ?_⟩
  · simp only [IPv4Address.ARPA, Bytes_four]
    rfl
  · simp only [IPv4Address.ARPA, Bytes_sixteen]
    rfl
  · simp only [IPv4Address.ARPA, Bytes_four]
    rfl

/-! ## The reference ranges -/

/-- C21 (failing input). `String()` of each of the six reference ranges is
`0.0.0.0`, not the address of the range: the ranges keep the 16-byte form that
`net.ParseIP` returns, and `String` renders the bytes `n[0]` to `n[3]` of that
form, which are zero, while `Uint32` goes through `To4` and packs the last four
bytes.  So `r.String()` differs from `ToIPv4Address(r.Uint32()).String()`, which
is the address listed for the range. -/
theorem reference_ranges_String :
    (ClassA.String = .ok "0.0.0.0".toList ∧ ClassB.String = .ok "0.0.0.0".toList
      ∧ ClassC.String = .ok "0.0.0.0".toList ∧ Multicast.String = .ok "0.0.0.0".toList
      ∧ Loopback.String = .ok "0.0.0.0".toList ∧ LinkLocal.String = .ok "0.0.0.0".toList)
    ∧ ((ToIPv4Address ClassA.Uint32).map IPv4Address.String = some (.ok "10.0.0.0".toList)
      ∧ (ToIPv4Address ClassB.Uint32).map IPv4Address.String
          = some (.ok "172.16.0.0".toList)
      ∧ (ToIPv4Address ClassC.Uint32).map IPv4Address.String
          = some (.ok "192.168.0.0".toList)
      ∧ (ToIPv4Address Multicast.Uint32).map IPv4Address.String
          = some (.ok "224.0.0.0".toList)
      ∧ (ToIPv4Address Loopback.Uint32).map IPv4Address.String
          = some (.ok "127.0.0.0".toList)
      ∧ (ToIPv4Address LinkLocal.Uint32).map IPv4Address.String
          = some (.ok "169.254.0.0".toList))
    ∧ ClassA.n = IPv4 10 0 0 0 ∧ ClassA.n.length = 16 := by
  decide

end Ipaddress
